import Mathlib

/-!
Verification of the parameter-mapping engine of `holopy/inference/model.py`:
`read_map`, `edit_map_indices`, `Model._convert_to_map`, `Model._iterate_mapping`,
`Model._map_dictionary`, `Model._map_xarray`, `Model._map_complex`,
`Model._check_for_ties` and `Model.add_tie`.

The embedding works on a `Value` type standing for the Python values the engine
dispatches on (lists, tuples/arrays, dicts, labelled arrays, complex priors,
priors, and opaque constant leaves), and a `MapE` type standing for the Python
values that serve as "maps" (nested lists, `'_parameter_<i>'` placeholder
strings, callables, and constants).  Python object identity of prior objects is
modelled by a numeric object id carried next to the prior's attribute record.
Python exceptions are modelled by `Option`/error results; Python `while` loops
are modelled with an explicit fuel argument large enough for every run that
terminates in the source.
-/

/-- Modelled from the spec (the class `Prior` of `holopy/inference/prior.py` is
not among the provided sources): a free Variable carries an optional stable
human name, a scalar guess value, and underlying distribution parameters
(e.g. fixed bounds), here an opaque list of integers.  Two priors compare
equal when all attributes agree; `renamed` returns a copy with the name
replaced. -/
structure Prior where
  name : Option String
  guess : Int
  dist : List Int
deriving DecidableEq

/-- Modelled from the spec: `Prior.renamed` replaces only the name, so that
comparison after `renamed None` strips names before comparing. -/
def Prior.renamed (p : Prior) (n : Option String) : Prior :=
  { p with name := n }

/-- The closed set of callables the builder stores inside maps:
`dict`, `make_xarray` and `make_complex`. -/
inductive Func
  | fdict
  | fxarray
  | fcomplex
deriving DecidableEq

/-- Python values the engine dispatches on.  `vprior id p` is a `Prior` object
with Python object identity `id` and attribute record `p`; `vcomplexPrior` is a
`ComplexPrior` with its `real`/`imag` attributes (never identity-checked by the
engine, since the `ComplexPrior` branch of `_convert_to_map` precedes the
`Prior` branch); `vtuple` stands for tuples and plain `numpy` arrays (both hit
the same `isinstance(parameter, (list, tuple, np.ndarray))` branch);
`vxarray dim keys vals` is a labelled array with one named leading axis;
`vfunc` is a callable value; the remaining constructors are constant leaves. -/
inductive Value
  | vint : Int → Value
  | vstr : String → Value
  | vnone : Value
  | vcomplex : Int → Int → Value
  | vfunc : Func → Value
  | vprior : Nat → Prior → Value
  | vcomplexPrior : Value → Value → Value
  | vlist : List Value → Value
  | vtuple : List Value → Value
  | vdict : List (String × Value) → Value
  | vxarray : String → List String → List Value → Value

/-- Python values serving as maps: placeholder strings `'_parameter_<i>'`
(`mparam i`, kept with an `Int` index because `edit_map_indices` can produce a
negative index), other strings, nested lists, callables, and constant
leaves. -/
inductive MapE
  | mparam : Int → MapE
  | mstr : String → MapE
  | mint : Int → MapE
  | mnone : MapE
  | mcomplexc : Int → Int → MapE
  | mfunc : Func → MapE
  | mlist : List MapE → MapE

/-- The variable registry of a `Model`: `self._parameters` (prior objects, as
identity id plus attribute record, in first-discovery order) parallel to
`self._parameter_names`. -/
structure Registry where
  parameters : List (Nat × Prior)
  parameter_names : List String
deriving DecidableEq

/-- A `Model`'s mapping state: the registry plus the values of `self._maps`
(the dict keys `'scatterer'`, `'optics'`, ... carry no semantics, so only the
owned maps themselves are kept, in order). -/
structure ModelState where
  parameters : List (Nat × Prior)
  parameter_names : List String
  maps : List MapE

/-- Errors raised by `add_tie`.  In the source both validation failures are
`ValueError`s distinguished by message ("It is not present in parameters" for
an unknown name, "Cannot tie unequal parameters" for an unequal tie, matching
the spec's `UnknownParameter` and `TieError`); `indexError` models the
`IndexError`/`ValueError` exceptions escaping from list indexing or integer
parsing, and `keyError` a failed dictionary lookup on `self.parameters`. -/
inductive TieErr
  | unknownParameter
  | cannotTieUnequal
  | indexError
  | keyError
deriving DecidableEq

/-! ### String primitives mirroring the Python string operations -/

/-- Characters after the first `':'`, or `none` when there is no colon. -/
def afterFirstColon : List Char → Option (List Char)
  | [] => none
  | c :: cs => if c = ':' then some cs else afterFirstColon cs

/-- Python `s.split(':', 1)[-1]`: everything after the first colon, or the
whole string when no colon occurs. -/
def splitFirstColonTail (s : String) : String :=
  match afterFirstColon s.data with
  | none => s
  | some cs => String.mk cs

/-- Split a character list at its first `'_'`: `some (before, after)`, or
`none` if no underscore occurs. -/
def splitAtFirstUnderscore : List Char → Option (List Char × List Char)
  | [] => none
  | c :: cs =>
    if c = '_' then some ([], cs)
    else (splitAtFirstUnderscore cs).map (fun pr => (c :: pr.1, pr.2))

/-- Python `counter, reversename = name[::-1].split("_", 1)` followed by the
two reversals: `some (stem, suffix)` splits `name` at its last underscore;
`none` models the `ValueError` of the failed unpacking when `name` contains no
underscore. -/
def splitLastUnderscore (s : String) : Option (String × String) :=
  (splitAtFirstUnderscore s.data.reverse).map
    (fun pr => (String.mk pr.2.reverse, String.mk pr.1.reverse))

/-- Python `s.split("_")[-1]`: the component after the last underscore, or the
whole string when no underscore occurs. -/
def lastUnderscoreComponent (s : String) : String :=
  match splitAtFirstUnderscore s.data.reverse with
  | none => s
  | some pr => String.mk pr.1.reverse

/-- Parse a non-empty all-digit character list as a natural number. -/
def parseNatDigits : List Char → Option Nat
  | [] => none
  | cs =>
    if cs.all Char.isDigit then
      some (cs.foldl (fun a c => a * 10 + (c.toNat - 48)) 0)
    else none

/-- Python `int(s)` on the strings the engine actually parses: an optional
leading minus sign followed by decimal digits (the exotic `int()` forms with
surrounding whitespace, a plus sign or underscore separators do not occur in
maps built by the engine and are modelled as failures). -/
def pyInt (s : String) : Option Int :=
  match s.data with
  | '-' :: rest => (parseNatDigits rest).map (fun n => -(n : Int))
  | cs => (parseNatDigits cs).map (fun n => (n : Int))

/-- Python `s[:11] == '_parameter_'` (equivalently `s.startswith`). -/
def isParameterString (s : String) : Bool :=
  "_parameter_".data.isPrefixOf s.data

/-! ### Python list-indexing primitives (negative indices wrap around) -/

/-- Normalize a Python index against a list length: non-negative indices must
be below the length, negative indices count from the end; `none` models
`IndexError`. -/
def pyNormIdx (len : Nat) (i : Int) : Option Nat :=
  if 0 ≤ i then
    if i < (len : Int) then some i.toNat else none
  else
    if 0 ≤ i + (len : Int) then some (i + (len : Int)).toNat else none

/-- Python `l[i]`. -/
def pyGetIdx (l : List α) (i : Int) : Option α :=
  (pyNormIdx l.length i).bind (fun n => l.get? n)

/-- Python `del l[i]`. -/
def pyDelIdx (l : List α) (i : Int) : Option (List α) :=
  (pyNormIdx l.length i).map (fun n => l.eraseIdx n)

/-- Python `l[i] = a`. -/
def pySetIdx (l : List α) (i : Int) (a : α) : Option (List α) :=
  (pyNormIdx l.length i).map (fun n => l.set n a)

/-! ### `Model._check_for_ties` (source lines 169-192) -/

/-- The scan `for index, existing in enumerate(self._parameters): if existing
is parameter: … break`: index of the first entry whose Python object identity
matches. -/
def findTieIndex : List (Nat × Prior) → Nat → Option Nat
  | [], _ => none
  | e :: rest, pid =>
    if e.1 = pid then some 0 else (findTieIndex rest pid).map (· + 1)

/-- Python `l.index(x)`: position of the first occurrence (only ever called
on members in the source, where `.index` cannot raise). -/
def listIndex : List String → String → Nat
  | [], _ => 0
  | y :: rest, x => if y = x then 0 else listIndex rest x + 1

/-- The `while name in self._parameter_names` loop of `_check_for_ties`:
split the candidate at its last underscore, increment the parsed counter and
retry.  The loop is modelled with fuel; `names.length + 1` steps always
suffice because each attempted candidate that keeps the loop running is a
member of `names` and the candidates are pairwise distinct. -/
def uniqLoop : Nat → List String → String → Option String
  | 0, _, _ => none
  | fuel+1, names, name =>
    if name ∈ names then
      match splitLastUnderscore name with
      | none => none
      | some pr =>
        match pyInt pr.2 with
        | none => none
        | some c => uniqLoop fuel names (pr.1 ++ "_" ++ toString (c + 1))
    else some name

/-- `Model._check_for_ties(parameter, name)`.  The scan
`for index, existing in enumerate(self._parameters): if existing is parameter`
compares Python object identity, modelled by the numeric object id `pid`; on a
hit the stored name is simplified to its part after the first colon when that
simplification stays unique, and the existing index is returned with no new
slot.  Otherwise the parameter is appended, `parameter.name` overrides the
suggested name when set, and a unique name is produced by appending `'_0'` on
a collision and then incrementing the trailing numeric suffix. -/
def check_for_ties (reg : Registry) (pid : Nat) (p : Prior) (name : String) :
    Option (Registry × Nat) :=
  match findTieIndex reg.parameters pid with
  | some index =>
    match reg.parameter_names.get? index with
    | none => none
    | some nm =>
      let shared := splitFirstColonTail nm
      let names' :=
        if shared ∈ reg.parameter_names then reg.parameter_names
        else reg.parameter_names.set index shared
      some ({ reg with parameter_names := names' }, index)
  | none =>
    let index := reg.parameters.length
    let params' := reg.parameters ++ [(pid, p)]
    let name1 := match p.name with | some n => n | none => name
    let name2 := if name1 ∈ reg.parameter_names then name1 ++ "_0" else name1
    match uniqLoop (reg.parameter_names.length + 1) reg.parameter_names name2 with
    | none => none
    | some finalName =>
      some (⟨params', reg.parameter_names ++ [finalName]⟩, index)

/-! ### `Model._convert_to_map` and its helpers (source lines 128-167) -/

/-- `enumerate(parameter)` with stringified indices, as consumed by
`_iterate_mapping` (`prefix + str(suffix)`). -/
def enumPairs : Nat → List Value → List (String × Value)
  | _, [] => []
  | i, v :: vs => (toString i, v) :: enumPairs (i + 1) vs

/-- `val is not None` on a built map entry. -/
def isMNone : MapE → Bool
  | .mnone => true
  | _ => false

mutual
/-- `Model._convert_to_map(parameter, name)`, with the bodies of
`_map_dictionary`, `_map_xarray` and `_map_complex` inlined at their single
call sites.  The recursion carries an explicit fuel (the Python recursion
always terminates; any fuel at least the configuration's size suffices). -/
def convert_to_map : Nat → Registry → Value → String → Option (Registry × MapE)
  | 0, _, _, _ => none
  | fuel+1, reg, v, name =>
    match v with
    | .vlist xs =>
      (iterate_mapping fuel reg (name ++ ".") (enumPairs 0 xs)).map
        (fun rm => (rm.1, .mlist rm.2))
    | .vtuple xs =>
      (iterate_mapping fuel reg (name ++ ".") (enumPairs 0 xs)).map
        (fun rm => (rm.1, .mlist rm.2))
    | .vdict entries =>
      let pre := if name.length > 0 then name ++ "." else ""
      (iterate_mapping fuel reg pre entries).map (fun rm =>
        let dict_args :=
          (((entries.map Prod.fst).zip rm.2).filter (fun kv => !isMNone kv.2)).map
            (fun kv => MapE.mlist [.mstr kv.1, kv.2])
        (rm.1, .mlist [.mfunc .fdict, .mlist [.mlist dict_args]]))
    | .vxarray dim keys vals =>
      (iterate_mapping fuel reg (name ++ ".") (keys.zip vals)).map (fun rm =>
        (rm.1, .mlist [.mfunc .fxarray,
          .mlist [.mstr dim, .mlist (keys.map MapE.mstr), .mlist rm.2]]))
    | .vcomplexPrior re im =>
      (iterate_mapping fuel reg (name ++ ".") [("real", re), ("imag", im)]).map
        (fun rm => (rm.1, .mlist [.mfunc .fcomplex, .mlist rm.2]))
    | .vprior pid p =>
      (check_for_ties reg pid p name).map
        (fun ri => (ri.1, .mparam (ri.2 : Int)))
    | .vint n => some (reg, .mint n)
    | .vstr s => some (reg, .mstr s)
    | .vnone => some (reg, .mnone)
    | .vcomplex a b => some (reg, .mcomplexc a b)
    | .vfunc f => some (reg, .mfunc f)

/-- `Model._iterate_mapping(prefix, pairs)`: convert each `(suffix, value)`
pair in order, threading the registry. -/
def iterate_mapping : Nat → Registry → String → List (String × Value) →
    Option (Registry × List MapE)
  | 0, _, _, _ => none
  | _+1, reg, _, [] => some (reg, [])
  | fuel+1, reg, pre, (sfx, v) :: rest =>
    match convert_to_map fuel reg v (pre ++ sfx) with
    | none => none
    | some (r1, m) =>
      match iterate_mapping fuel r1 pre rest with
      | none => none
      | some (r2, ms) => some (r2, m :: ms)
end

/-! ### `read_map` and the stored callables (source lines 38-76) -/

/-- `isinstance(x, Prior)` on a reconstructed value (`ComplexPrior` is a
`Prior` subclass). -/
def isPriorVal : Value → Bool
  | .vprior _ _ => true
  | .vcomplexPrior _ _ => true
  | _ => false

/-- `callable(map_entry[0])`: extract the stored function. -/
def asCallable : MapE → Option Func
  | .mfunc f => some f
  | _ => none

/-- `dict(arg)` key-value extraction over a list of `[key, value]` pairs;
`none` models the `TypeError`/`ValueError` for anything else. -/
def pairsOfValues : List Value → Option (List (String × Value))
  | [] => some []
  | .vlist [.vstr k, v] :: rest => (pairsOfValues rest).map (fun ps => (k, v) :: ps)
  | _ => none

/-- Coordinate labels for `make_xarray`: all keys must be strings here
(the engine's labelled arrays are modelled with string coordinates). -/
def stringsOfValues : List Value → Option (List String)
  | [] => some []
  | .vstr s :: rest => (stringsOfValues rest).map (fun ss => s :: ss)
  | _ => none

/-- Application of the three callables a built map can store: `dict` over a
list of `[key, value]` pairs, `make_xarray(dim_name, keys, values)` (source
lines 38-46), and `make_complex(real, imag)` (source lines 49-53), which
builds a `ComplexPrior` when either part is a `Prior` and a complex number
otherwise.  Argument shapes outside what Python would accept evaluate to
`none` (a `TypeError`). -/
def applyFunc : Func → List Value → Option Value
  | .fdict, [.vlist pairs] => (pairsOfValues pairs).map Value.vdict
  | .fxarray, [.vstr dim, .vlist keys, .vlist vs] =>
    (stringsOfValues keys).map (fun ks => Value.vxarray dim ks vs)
  | .fcomplex, [re, im] =>
    if isPriorVal re || isPriorVal im then some (.vcomplexPrior re im)
    else
      match re, im with
      | .vint a, .vint b => some (.vcomplex a b)
      | _, _ => none
  | _, _ => none

mutual
/-- `read_map(map_entry, parameter_values)` (source lines 56-76): placeholder
strings index into the values (negative parsed indices wrap around as in
Python), a two-element list whose first element is callable is a deferred
application, any other list is read elementwise, and everything else is
returned verbatim. -/
def read_map : MapE → List Value → Option Value
  | .mparam i, vals => pyGetIdx vals i
  | .mstr s, vals =>
    if isParameterString s then (pyInt (s.drop 11)).bind (pyGetIdx vals)
    else some (.vstr s)
  | .mint n, _ => some (.vint n)
  | .mnone, _ => some .vnone
  | .mcomplexc a b, _ => some (.vcomplex a b)
  | .mfunc f, _ => some (.vfunc f)
  | .mlist [f0, args], vals =>
    match asCallable f0 with
    | some f =>
      match args with
      | .mlist argl => (readList argl vals).bind (applyFunc f)
      | _ => none
    | none =>
      -- the elementwise read of the two-element list `[f0, args]`, unfolded
      match read_map f0 vals with
      | none => none
      | some v0 =>
        match read_map args vals with
        | none => none
        | some v1 => some (.vlist [v0, v1])
  | .mlist l, vals => (readList l vals).map Value.vlist

/-- The list comprehensions `[read_map(item, parameter_values) for item in …]`. -/
def readList : List MapE → List Value → Option (List Value)
  | [], _ => some []
  | m :: ms, vals =>
    match read_map m vals with
    | none => none
    | some v => (readList ms vals).map (fun vs => v :: vs)
end

/-! ### `edit_map_indices` (source lines 79-103) -/

/-- The index arithmetic of `edit_map_indices` on one parsed placeholder
index: merged indices move to `indices[0]`, untouched indices below
`indices[0]` stay, higher ones drop by `(np.array(indices) < old_index).sum() - 1`;
`none` models the `IndexError` of `indices[0]` on an empty index list. -/
def renumberIndex (indices : List Int) (old : Int) : Option Int :=
  if old ∈ indices then indices.head?
  else
    match indices.head? with
    | none => none
    | some i0 =>
      if old < i0 then some old
      else some (old - ((indices.countP (fun j => decide (j < old)) : Int) - 1))

mutual
/-- `edit_map_indices(map_entry, indices)`: rewrite every placeholder (whether
built as a placeholder or a constant string that happens to carry the
`'_parameter_'` prefix, which the source parses via `split("_")[-1]`), recurse
into lists, and leave other entries untouched. -/
def edit_map_indices : MapE → List Int → Option MapE
  | .mlist l, indices => (editList l indices).map MapE.mlist
  | .mparam old, indices => (renumberIndex indices old).map MapE.mparam
  | .mstr s, indices =>
    if isParameterString s then
      match pyInt (lastUnderscoreComponent s) with
      | none => none
      | some old =>
        (renumberIndex indices old).map
          (fun nw => MapE.mstr ("_parameter_" ++ toString nw))
    else some (.mstr s)
  | .mint n, _ => some (.mint n)
  | .mnone, _ => some .mnone
  | .mcomplexc a b, _ => some (.mcomplexc a b)
  | .mfunc f, _ => some (.mfunc f)

/-- `[edit_map_indices(item, indices) for item in map_entry]`. -/
def editList : List MapE → List Int → Option (List MapE)
  | [], _ => some []
  | m :: ms, indices =>
    match edit_map_indices m indices with
    | none => none
    | some m' => (editList ms indices).map (fun ms' => m' :: ms')
end

/-! ### `Model.add_tie` (source lines 194-224) and `Model.__init__` -/

/-- The `Model.parameters` property: `{name: par for name, par in
zip(self._parameter_names, self._parameters)}` (a Python dict, so a duplicated
name keeps its last value). -/
def parametersDict (st : ModelState) : List (String × Prior) :=
  st.parameter_names.zip (st.parameters.map Prod.snd)

/-- `self.parameters[k]`: last binding wins; `none` models `KeyError`. -/
def pyDictGet (st : ModelState) (k : String) : Option Prior :=
  ((parametersDict st).reverse.find? (fun kv => kv.1 == k)).map Prod.snd

/-- The validation loop of `add_tie`: each name is first checked for presence
(`ValueError` "not present", the spec's `UnknownParameter`), then its prior is
compared after `renamed(None)` against that of the first tied name
(`ValueError` "Cannot tie unequal parameters", the spec's `TieError`), and on
success its first index in `self._parameter_names` is accumulated. -/
def tieValidateLoop (st : ModelState) (first : String) :
    List String → List Int → List Int × Option TieErr
  | [], acc => (acc, none)
  | par :: rest, acc =>
    if par ∈ st.parameter_names then
      match pyDictGet st first with
      | none => (acc, some .keyError)
      | some fp =>
        match pyDictGet st par with
        | none => (acc, some .keyError)
        | some pp =>
          if pp.renamed none = fp.renamed none then
            tieValidateLoop st first rest
              (acc ++ [(listIndex st.parameter_names par : Int)])
          else (acc, some .cannotTieUnequal)
    else (acc, some .unknownParameter)

/-- `indices.sort()`: ascending, duplicates kept.  (Python's sort is stable;
on a list of integers stability is unobservable, so any ascending sort is a
faithful model.) -/
def sortedIndices (l : List Int) : List Int :=
  l.insertionSort (· ≤ ·)

/-- The deletion loop `for index in indices[:0:-1]: del self._parameters[index];
del self._parameter_names[index]`; an exception aborts the loop, keeping the
mutations already performed. -/
def deleteLoop : ModelState → List Int → ModelState × Option TieErr
  | st, [] => (st, none)
  | st, i :: rest =>
    match pyDelIdx st.parameters i with
    | none => (st, some .indexError)
    | some ps =>
      match pyDelIdx st.parameter_names i with
      | none => ({ st with parameters := ps }, some .indexError)
      | some ns => deleteLoop { st with parameters := ps, parameter_names := ns } rest

/-- `Model.add_tie(parameters_to_tie, new_name)`: validate (no mutation on a
validation failure), sort the collected indices, delete all but the lowest,
install `new_name` at `indices[0]` when given, then rewrite every owned map
with `edit_map_indices`.  The returned state reflects exactly the mutations
performed before any exception, and the second component is the exception. -/
def add_tie (st : ModelState) (parameters_to_tie : List String)
    (new_name : Option String) : ModelState × Option TieErr :=
  match tieValidateLoop st (parameters_to_tie.headD "") parameters_to_tie [] with
  | (_, some e) => (st, some e)
  | (indices0, none) =>
    let indices := sortedIndices indices0
    match deleteLoop st (indices.drop 1).reverse with
    | (st1, some e) => (st1, some e)
    | (st1, none) =>
      let afterName : ModelState × Option TieErr :=
        match new_name with
        | none => (st1, none)
        | some n =>
          match indices.head? with
          | none => (st1, some .indexError)
          | some i0 =>
            match pySetIdx st1.parameter_names i0 n with
            | none => (st1, some .indexError)
            | some ns => ({ st1 with parameter_names := ns }, none)
      match afterName with
      | (st2, some e) => (st2, some e)
      | (st2, none) =>
        match editList st2.maps indices with
        | none => (st2, some .indexError)
        | some ms => ({ st2 with maps := ms }, none)

/-- `OPTICS_KEYS` (source lines 34-35). -/
def OPTICS_KEYS : List String :=
  ["medium_index", "illum_wavelen", "illum_polarization", "noise_sd"]

/-- The registry/map-building part of `Model.__init__`: convert the
scatterer's parameter dict, then the optics dict built over `OPTICS_KEYS`,
starting from an empty registry.  (The `ensure_array` normalisation of a
non-scalar `noise_sd` turns a Python list into a `numpy` array; both take the
same sequence branch of `_convert_to_map`, so it is omitted here.) -/
def model_init (fuel : Nat) (scatterer_parameters : List (String × Value))
    (medium_index illum_wavelen illum_polarization noise_sd : Value) :
    Option ModelState :=
  let optics := [medium_index, illum_wavelen, illum_polarization, noise_sd]
  let optics_parameters := OPTICS_KEYS.zip optics
  match convert_to_map fuel ⟨[], []⟩ (.vdict scatterer_parameters) "" with
  | none => none
  | some (r1, mscat) =>
    match convert_to_map fuel r1 (.vdict optics_parameters) "" with
    | none => none
    | some (r2, mopt) =>
      some ⟨r2.parameters, r2.parameter_names, [mscat, mopt]⟩

/-! ### Spec-side definitions for the round-trip property -/

/-- `v is None` on an original configuration value. -/
def isVNone : Value → Bool
  | .vnone => true
  | _ => false

/-- `real`/`imag` parts of a `ComplexPrior` as they occur in practice: a
number or a free prior. -/
def isNumOrPrior : Value → Bool
  | .vint _ => true
  | .vprior _ _ => true
  | _ => false

mutual
/-- Defined from the spec's round-trip wording, adjusted to what reading a
built map with the guess vector actually reconstructs: every free Variable is
replaced by its guess value, tuples and arrays become lists, a `ComplexPrior`
becomes the complex number of its parts' reads, and mapping entries whose
value is `None` are dropped. -/
def substGuess : Value → Value
  | .vint n => .vint n
  | .vstr s => .vstr s
  | .vnone => .vnone
  | .vcomplex a b => .vcomplex a b
  | .vfunc f => .vfunc f
  | .vprior _ p => .vint p.guess
  | .vcomplexPrior re im =>
    match substGuess re, substGuess im with
    | .vint a, .vint b => .vcomplex a b
    | _, _ => .vnone
  | .vlist xs => .vlist (substGuessList xs)
  | .vtuple xs => .vlist (substGuessList xs)
  | .vdict es => .vdict (substGuessEntries es)
  | .vxarray dim keys vs => .vxarray dim keys (substGuessList vs)

/-- `substGuess` over the items of a sequence. -/
def substGuessList : List Value → List Value
  | [] => []
  | v :: vs => substGuess v :: substGuessList vs

/-- `substGuess` over dict entries, dropping `None`-valued entries. -/
def substGuessEntries : List (String × Value) → List (String × Value)
  | [] => []
  | (k, v) :: rest =>
    if isVNone v then substGuessEntries rest
    else (k, substGuess v) :: substGuessEntries rest
end

mutual
/-- The prior object `(pid, p)` occurs somewhere in the configuration. -/
def occB (pid : Nat) (p : Prior) : Value → Bool
  | .vprior i q => i == pid && q == p
  | .vcomplexPrior re im => occB pid p re || occB pid p im
  | .vlist xs => occBList pid p xs
  | .vtuple xs => occBList pid p xs
  | .vdict es => occBEntries pid p es
  | .vxarray _ _ vs => occBList pid p vs
  | _ => false

/-- `occB` over the items of a sequence. -/
def occBList (pid : Nat) (p : Prior) : List Value → Bool
  | [] => false
  | v :: vs => occB pid p v || occBList pid p vs

/-- `occB` over dict entries. -/
def occBEntries (pid : Nat) (p : Prior) : List (String × Value) → Bool
  | [] => false
  | e :: rest => occB pid p e.2 || occBEntries pid p rest
end

mutual
/-- Structural well-formedness of a configuration for the round-trip
statement: no callable values, no string (leaf, dict key, axis name or
coordinate label) carrying the reserved `'_parameter_'` prefix, coordinate
labels and slice lists of equal length, and `ComplexPrior` parts that are
numbers or priors. -/
def wfV : Value → Bool
  | .vint _ => true
  | .vnone => true
  | .vcomplex _ _ => true
  | .vstr s => !isParameterString s
  | .vfunc _ => false
  | .vprior _ _ => true
  | .vcomplexPrior re im => isNumOrPrior re && isNumOrPrior im
  | .vlist xs => wfVList xs
  | .vtuple xs => wfVList xs
  | .vdict es => wfVEntries es
  | .vxarray dim keys vs =>
    !isParameterString dim && keys.all (fun k => !isParameterString k) &&
      keys.length == vs.length && wfVList vs

/-- `wfV` over the items of a sequence. -/
def wfVList : List Value → Bool
  | [] => true
  | v :: vs => wfV v && wfVList vs

/-- `wfV` over dict entries (keys must not carry the reserved prefix). -/
def wfVEntries : List (String × Value) → Bool
  | [] => true
  | e :: rest => !isParameterString e.1 && wfV e.2 && wfVEntries rest
end

/-- Python object identities are coherent inside a configuration: the same id
never tags two priors with different attributes (two occurrences of one
Python object always show the same attribute record). -/
def IdCoherent (v : Value) : Prop :=
  ∀ pid p q, occB pid p v = true → occB pid q v = true → p = q

/-- The values vector agrees with the guesses of a registry's parameter
list on every slot. -/
def ValsOK (ps : List (Nat × Prior)) (vals : List Value) : Prop :=
  ∀ i e, ps.get? i = some e → vals.get? i = some (.vint e.2.guess)

/-- The guess vector of a registry: `[par.guess for par in self._parameters]`
(the `Model.initial_guess` property, source lines 265-270). -/
def guessVec (ps : List (Nat × Prior)) : List Value :=
  ps.map (fun e => Value.vint e.2.guess)

/-! ### Helper lemmas on the registry scan -/

theorem findTieIndex_eq_none_iff (l : List (Nat × Prior)) (pid : Nat) :
    findTieIndex l pid = none ↔ ∀ e ∈ l, e.1 ≠ pid := by
  induction l with
  | nil => simp [findTieIndex]
  | cons e rest ih =>
    by_cases h : e.1 = pid
    · simp [findTieIndex, h]
    · simp [findTieIndex, h, ih]

theorem findTieIndex_append_fresh (l : List (Nat × Prior)) (pid : Nat) (p : Prior)
    (h : ∀ e ∈ l, e.1 ≠ pid) :
    findTieIndex (l ++ [(pid, p)]) pid = some l.length := by
  induction l with
  | nil => simp [findTieIndex]
  | cons e rest ih =>
    have he : e.1 ≠ pid := h e (by simp)
    have ih' := ih (fun x hx => h x (by simp [hx]))
    simp [findTieIndex, he, ih']

/-! ### Shared concrete example states -/

/-- An unnamed prior object's attribute record used in concrete examples. -/
def pX : Prior := ⟨none, 5, []⟩

/-- A prior value shared (as a value, not as an object) by slots 1 and 3 of
`exState5`. -/
def priorB : Prior := ⟨none, 1, [0, 2]⟩

/-- A second, different prior value. -/
def priorA : Prior := ⟨none, 9, [0]⟩

/-- A five-slot model state with names `a`..`e`, value-equal (but distinct)
prior objects at slots 1 and 3, and one owned map referencing every slot. -/
def exState5 : ModelState :=
  ⟨[(0, priorA), (1, priorB), (2, priorA), (3, priorB), (4, priorA)],
   ["a", "b", "c", "d", "e"],
   [.mlist [.mparam 0, .mparam 1, .mparam 2, .mparam 3, .mparam 4]]⟩

/-! ### Claims C9, C2, C3, C4 -/

/-- C9: registering three unnamed Variables in sequence, each under the same
suggested name `"x"`, stores the unique names `"x"`, `"x_0"`, `"x_1"` in that
order (collision resolved by appending `_0`, then parsing and incrementing the
trailing numeric suffix until unique). -/
theorem C9_name_collision_sequence :
    check_for_ties ⟨[], []⟩ 0 pX "x" = some (⟨[(0, pX)], ["x"]⟩, 0) ∧
    check_for_ties ⟨[(0, pX)], ["x"]⟩ 1 pX "x" =
      some (⟨[(0, pX), (1, pX)], ["x", "x_0"]⟩, 1) ∧
    check_for_ties ⟨[(0, pX), (1, pX)], ["x", "x_0"]⟩ 2 pX "x" =
      some (⟨[(0, pX), (1, pX), (2, pX)], ["x", "x_0", "x_1"]⟩, 2) :=
  ⟨by decide, by decide, by decide⟩


/-! ### Characterizations of `check_for_ties` -/

theorem findTieIndex_some (l : List (Nat × Prior)) (pid : Nat) (k : Nat)
    (h : findTieIndex l pid = some k) : ∃ q, l.get? k = some (pid, q) := by
  induction l generalizing k with
  | nil => simp [findTieIndex] at h
  | cons e rest ih =>
    by_cases he : e.1 = pid
    · simp [findTieIndex, he] at h
      subst h
      exact ⟨e.2, by simp [← he]⟩
    · simp [findTieIndex, he] at h
      obtain ⟨k', hk', rfl⟩ := h
      obtain ⟨q, hq⟩ := ih k' hk'
      exact ⟨q, by simpa using hq⟩

theorem uniqLoop_not_mem (fuel : Nat) (names : List String) (nm fn : String)
    (h : uniqLoop fuel names nm = some fn) : fn ∉ names := by
  induction fuel generalizing nm with
  | zero => simp [uniqLoop] at h
  | succ n ih =>
    unfold uniqLoop at h
    split at h
    · split at h
      · exact absurd h (by simp)
      · split at h
        · exact absurd h (by simp)
        · exact ih _ h
    · rename_i hmem
      simp only [Option.some.injEq] at h
      subst h
      exact hmem

theorem check_for_ties_untied (reg : Registry) (pid : Nat) (p : Prior)
    (name : String) (reg' : Registry) (i : Nat)
    (hf : findTieIndex reg.parameters pid = none)
    (h : check_for_ties reg pid p name = some (reg', i)) :
    i = reg.parameters.length ∧
    reg'.parameters = reg.parameters ++ [(pid, p)] ∧
    ∃ fn, reg'.parameter_names = reg.parameter_names ++ [fn] ∧
      fn ∉ reg.parameter_names := by
  unfold check_for_ties at h
  rw [hf] at h
  dsimp only at h
  split at h
  · exact absurd h (by simp)
  · rename_i fn hu
    simp only [Option.some.injEq, Prod.mk.injEq] at h
    obtain ⟨hreg, hi⟩ := h
    have hfn : fn ∉ reg.parameter_names := uniqLoop_not_mem _ _ _ _ hu
    exact ⟨hi.symm, by rw [← hreg], fn, by rw [← hreg], hfn⟩

theorem check_for_ties_tied (reg : Registry) (pid : Nat) (p : Prior)
    (name : String) (k : Nat) (reg' : Registry) (i : Nat)
    (hf : findTieIndex reg.parameters pid = some k)
    (h : check_for_ties reg pid p name = some (reg', i)) :
    i = k ∧ reg'.parameters = reg.parameters ∧
    reg'.parameter_names.length = reg.parameter_names.length ∧
    (reg'.parameter_names = reg.parameter_names ∨
     ∃ nm, reg.parameter_names.get? k = some nm ∧
       splitFirstColonTail nm ∉ reg.parameter_names ∧
       reg'.parameter_names = reg.parameter_names.set k (splitFirstColonTail nm)) := by
  unfold check_for_ties at h
  rw [hf] at h
  dsimp only at h
  split at h
  · exact absurd h (by simp)
  · rename_i nm hget
    simp only [Option.some.injEq, Prod.mk.injEq] at h
    obtain ⟨hreg, hi⟩ := h
    refine ⟨hi.symm, by rw [← hreg], ?_, ?_⟩
    · rw [← hreg]
      dsimp only
      split
      · rfl
      · simp
    · rw [← hreg]
      dsimp only
      split
      · exact Or.inl rfl
      · rename_i hshared
        exact Or.inr ⟨nm, hget, hshared, rfl⟩

/-- C2: registration during map building is identity-based, never value-based:
registering two distinct prior objects with identical attribute values (fresh
ids `id1 ≠ id2`) assigns two different slot indices and grows the registry by
two slots, while re-registering the literally same object (same id) returns
the slot index already assigned to it and appends no new slot. -/
theorem C2_identity_based_ties :
    (∀ (reg reg1 reg2 : Registry) (id1 id2 : Nat) (p : Prior) (n1 n2 : String)
        (i1 i2 : Nat),
      (∀ e ∈ reg.parameters, e.1 ≠ id1) → (∀ e ∈ reg.parameters, e.1 ≠ id2) →
      id1 ≠ id2 →
      check_for_ties reg id1 p n1 = some (reg1, i1) →
      check_for_ties reg1 id2 p n2 = some (reg2, i2) →
      i1 ≠ i2 ∧ reg2.parameters.length = reg.parameters.length + 2) ∧
    (∀ (reg reg1 reg2 : Registry) (pid : Nat) (p : Prior) (n1 n2 : String)
        (i1 i2 : Nat),
      check_for_ties reg pid p n1 = some (reg1, i1) →
      check_for_ties reg1 pid p n2 = some (reg2, i2) →
      i2 = i1 ∧ reg2.parameters = reg1.parameters) := by
  constructor
  · intro reg reg1 reg2 id1 id2 p n1 n2 i1 i2 h1 h2 hne hc1 hc2
    have hf1 : findTieIndex reg.parameters id1 = none :=
      (findTieIndex_eq_none_iff _ _).mpr h1
    obtain ⟨hi1, hp1, -⟩ := check_for_ties_untied _ _ _ _ _ _ hf1 hc1
    have hf2 : findTieIndex reg1.parameters id2 = none := by
      rw [hp1]
      refine (findTieIndex_eq_none_iff _ _).mpr ?_
      intro e he
      rcases List.mem_append.mp he with h | h
      · exact h2 e h
      · simp at h
        rw [h]
        simpa using fun hh => hne hh
    obtain ⟨hi2, hp2, -⟩ := check_for_ties_untied _ _ _ _ _ _ hf2 hc2
    have hlen1 : reg1.parameters.length = reg.parameters.length + 1 := by
      rw [hp1]; simp
    constructor
    · rw [hi1, hi2, hlen1]; omega
    · rw [hp2, hp1]; simp
  · intro reg reg1 reg2 pid p n1 n2 i1 i2 hc1 hc2
    rcases hf1 : findTieIndex reg.parameters pid with _ | k
    · obtain ⟨hi1, hp1, fn, hn1, -⟩ := check_for_ties_untied _ _ _ _ _ _ hf1 hc1
      have hfresh : ∀ e ∈ reg.parameters, e.1 ≠ pid :=
        (findTieIndex_eq_none_iff _ _).mp hf1
      have hf2 : findTieIndex reg1.parameters pid = some reg.parameters.length := by
        rw [hp1]
        exact findTieIndex_append_fresh _ _ _ hfresh
      obtain ⟨hi2, hp2, -⟩ := check_for_ties_tied _ _ _ _ _ _ _ hf2 hc2
      exact ⟨by rw [hi2, hi1], hp2⟩
    · obtain ⟨hi1, hp1, -⟩ := check_for_ties_tied _ _ _ _ _ _ _ hf1 hc1
      have hf2 : findTieIndex reg1.parameters pid = some k := by rw [hp1, hf1]
      obtain ⟨hi2, hp2, -⟩ := check_for_ties_tied _ _ _ _ _ _ _ hf2 hc2
      exact ⟨by rw [hi2, hi1], hp2⟩

/-- Witness for C2 at a concrete input: two fresh value-equal priors get
slots 0 and 1 of an initially empty registry. -/
theorem C2_identity_based_ties_witness :
    (0 : Nat) ≠ 1 ∧
      ([(0, pX), (1, pX)] : List (Nat × Prior)).length =
        ([] : List (Nat × Prior)).length + 2 :=
  C2_identity_based_ties.1 ⟨[], []⟩ ⟨[(0, pX)], ["x"]⟩
    ⟨[(0, pX), (1, pX)], ["x", "x_0"]⟩ 0 1 pX "x" "x" 0 1
    (by simp) (by simp) (by decide) (by decide) (by decide)

/-- C3: for a tie of a sorted duplicate-free index set `I`, the renumbering
`edit_map_indices` applies to a placeholder maps each index in `I` to `min I`
(the head), leaves untouched indices below `min I` unchanged, and shifts each
untouched higher index down by the number of removed indices (`I` without its
minimum, i.e. its tail) below it; and concretely, tying `b` and `d` of the
five slots named `[a,b,c,d,e]` under the new name `bd` yields the four slots
named `[a, bd, c, e]`. -/
theorem C3_tie_renumbering :
    (∀ (I : List Int) (hne : I ≠ []) (_ : I.Sorted (· ≤ ·)) (_ : I.Nodup)
        (old : Int),
      edit_map_indices (.mparam old) I =
        some (.mparam (
          if old ∈ I then I.head hne
          else if old < I.head hne then old
          else old - (I.tail.countP (fun j => decide (j < old)) : Int)))) ∧
    add_tie exState5 ["b", "d"] (some "bd") =
      (⟨[(0, priorA), (1, priorB), (2, priorA), (4, priorA)],
        ["a", "bd", "c", "e"],
        [.mlist [.mparam 0, .mparam 1, .mparam 2, .mparam 1, .mparam 3]]⟩,
       none) := by
  constructor
  · intro I hne hs hnd old
    match I, hne with
    | a :: t, _ =>
      simp only [edit_map_indices, renumberIndex, List.head?_cons, List.head_cons,
        List.tail_cons]
      by_cases hmem : old ∈ a :: t
      · simp [hmem]
      · simp only [hmem, if_false]
        by_cases hlt : old < a
        · simp [hlt]
        · have ha : a ≠ old := fun hh => hmem (hh ▸ List.mem_cons_self a t)
          have halt : a < old := by
            rcases lt_or_eq_of_le (not_lt.mp hlt) with h | h
            · exact h
            · exact absurd h ha
          simp only [hlt, if_false]
          have hcnt : (a :: t).countP (fun j => decide (j < old)) =
              t.countP (fun j => decide (j < old)) + 1 := by
            rw [List.countP_cons]
            simp [halt]
          have harith :
              old - (((t.countP (fun j => decide (j < old)) + 1 : Nat) : Int) - 1) =
                old - (t.countP (fun j => decide (j < old)) : Int) := by
            push_cast
            ring
          rw [hcnt, harith]
          rfl
  · rfl

/-- Witness for C3 at a concrete input: with `I = [1, 3]`, the untouched
higher index 4 drops by one. -/
theorem C3_tie_renumbering_witness :
    edit_map_indices (.mparam 4) [1, 3] = some (.mparam 3) := by
  have h := C3_tie_renumbering.1 [1, 3] (by decide) (by decide) (by decide) 4
  simpa using h

/-- C4 counterexample: tying slots `{1, 3}` of the five-slot registry leaves a
`SlotRef` to 2 pointing at 2 — not at 1 as the claim states (slot 2 is below
the removed index 3 and above the surviving index 1, so it does not move). -/
theorem C4_counterexample :
    add_tie exState5 ["b", "d"] none =
      (⟨[(0, priorA), (1, priorB), (2, priorA), (4, priorA)],
        ["a", "b", "c", "e"],
        [.mlist [.mparam 0, .mparam 1, .mparam 2, .mparam 1, .mparam 3]]⟩,
       none) ∧
    MapE.mparam 2 ≠ MapE.mparam 1 := by
  refine ⟨rfl, ?_⟩
  intro h
  injection h with h2
  exact absurd h2 (by decide)

/-- C4 amended: after tying slots `{1, 3}` of a 5-slot registry, references
to 1 and 3 point to the surviving index 1, a reference to 0 is unchanged, and
references to 2 and 4 point to 2 and 3 respectively; `edit_map_indices`
applies this renumbering to every element of every owned (nested) map list. -/
theorem C4_amended_renumbering :
    edit_map_indices (.mparam 0) [1, 3] = some (.mparam 0) ∧
    edit_map_indices (.mparam 1) [1, 3] = some (.mparam 1) ∧
    edit_map_indices (.mparam 2) [1, 3] = some (.mparam 2) ∧
    edit_map_indices (.mparam 3) [1, 3] = some (.mparam 1) ∧
    edit_map_indices (.mparam 4) [1, 3] = some (.mparam 3) ∧
    ∀ l : List MapE,
      edit_map_indices (.mlist l) [1, 3] = (editList l [1, 3]).map MapE.mlist :=
  ⟨rfl, rfl, rfl, rfl, rfl, fun _ => rfl⟩

/-! ### Claim C5: unequal ties are rejected with no mutation -/

/-- The prior a name refers to, stripped of its name
(`self.parameters[k].renamed(None)`). -/
def lookupStripped (st : ModelState) (k : String) : Option Prior :=
  (pyDictGet st k).map (fun p => p.renamed none)

theorem pyDictGet_mem (st : ModelState)
    (hlen : st.parameter_names.length ≤ st.parameters.length)
    (x : String) (hx : x ∈ st.parameter_names) : ∃ p, pyDictGet st x = some p := by
  unfold pyDictGet parametersDict
  rcases hf : (st.parameter_names.zip (st.parameters.map Prod.snd)).reverse.find?
      (fun kv => kv.1 == x) with _ | e
  · exfalso
    rw [List.find?_eq_none] at hf
    have hxz : x ∈ (st.parameter_names.zip (st.parameters.map Prod.snd)).map Prod.fst := by
      rw [List.map_fst_zip]
      · exact hx
      · simpa using hlen
    obtain ⟨e, he, hfst⟩ := List.mem_map.mp hxz
    exact hf e (by simpa using he) (by simp [hfst])
  · exact ⟨e.2, by rw [hf]; rfl⟩

theorem tieValidateLoop_unequal (st : ModelState) (first : String)
    (hf : ∃ fp, pyDictGet st first = some fp) :
    ∀ (l : List String) (acc : List Int),
      (∀ x ∈ l, x ∈ st.parameter_names ∧ ∃ p, pyDictGet st x = some p) →
      (∃ x ∈ l, lookupStripped st x ≠ lookupStripped st first) →
      ∃ acc', tieValidateLoop st first l acc = (acc', some .cannotTieUnequal) := by
  intro l
  induction l with
  | nil =>
    intro acc _ hne
    obtain ⟨x, hx, _⟩ := hne
    exact absurd hx (by simp)
  | cons par rest ih =>
    intro acc hall hne
    obtain ⟨hmem, pp, hpp⟩ := hall par (by simp)
    obtain ⟨fp, hfp⟩ := hf
    unfold tieValidateLoop
    rw [if_pos hmem, hfp, hpp]
    dsimp only
    by_cases heq : pp.renamed none = fp.renamed none
    · rw [if_pos heq]
      refine ih _ (fun x hx => hall x (by simp [hx])) ?_
      obtain ⟨x, hx, hxne⟩ := hne
      rcases List.mem_cons.mp hx with rfl | hx'
      · exfalso
        apply hxne
        unfold lookupStripped
        rw [hpp, hfp]
        simp [heq]
      · exact ⟨x, hx', hxne⟩
    · rw [if_neg heq]
      exact ⟨acc, rfl⟩

/-- C5: for every model state whose registry names do not outnumber its
parameters, and every list of tie names all present in the registry whose
referenced priors are not all value-equal after stripping names, `add_tie`
fails with the unequal-tie `ValueError` (the spec's `TieError`) and returns
the state exactly as it was: same slot count, same names, every map
untouched. -/
theorem C5_unequal_tie_rejected (st : ModelState) (ties : List String)
    (nn : Option String)
    (hlen : st.parameter_names.length ≤ st.parameters.length)
    (hall : ∀ x ∈ ties, x ∈ st.parameter_names)
    (hne : ∃ x ∈ ties, lookupStripped st x ≠ lookupStripped st (ties.headD "")) :
    add_tie st ties nn = (st, some .cannotTieUnequal) := by
  have hf : ∃ fp, pyDictGet st (ties.headD "") = some fp := by
    rcases ties with _ | ⟨t0, rest⟩
    · obtain ⟨x, hx, _⟩ := hne
      exact absurd hx (by simp)
    · exact pyDictGet_mem st hlen t0 (hall t0 (by simp))
  obtain ⟨acc', hv⟩ := tieValidateLoop_unequal st _ hf ties []
    (fun x hx => ⟨hall x hx, pyDictGet_mem st hlen x (hall x hx)⟩) hne
  unfold add_tie
  rw [hv]

/-- Witness for C5 at a concrete input: tying the value-unequal parameters
`a` and `b` of the five-slot example state fails with the unequal-tie error
and changes nothing. -/
theorem C5_unequal_tie_rejected_witness :
    add_tie exState5 ["a", "b"] none = (exState5, some .cannotTieUnequal) :=
  C5_unequal_tie_rejected exState5 ["a", "b"] none (by decide) (by decide)
    ⟨"b", by decide, by decide⟩

/-! ### Claim C6: validation of the tie-name list -/

theorem edit_map_indices_nil_id :
    ∀ (m : MapE) (indices : List Int), indices = [] →
      ∀ m', edit_map_indices m indices = some m' → m' = m := by
  refine edit_map_indices.induct
    (fun m indices => indices = [] →
      ∀ m', edit_map_indices m indices = some m' → m' = m)
    (fun l indices => indices = [] →
      ∀ l', editList l indices = some l' → l' = l)
    ?_ ?_ ?_ ?_ ?_ ?_ ?_ ?_ ?_ ?_ ?_ ?_
  · intro l indices ih hidx m' h
    subst hidx
    unfold edit_map_indices at h
    rcases hl : editList l [] with _ | l'
    · rw [hl] at h
      exact absurd h (by simp)
    · rw [hl] at h
      simp only [Option.map_some', Option.some.injEq] at h
      rw [← h, ih rfl l' hl]
  · intro old indices hidx m' h
    subst hidx
    simp [edit_map_indices, renumberIndex] at h
  · intro s indices h1 h2 hidx m' h
    subst hidx
    simp [edit_map_indices, h1, h2] at h
  · intro s indices h1 c h2 hidx m' h
    subst hidx
    simp [edit_map_indices, h1, h2, renumberIndex] at h
  · intro s indices h1 hidx m' h
    subst hidx
    simp only [edit_map_indices, h1, Bool.false_eq_true, if_false,
      Option.some.injEq] at h
    exact h.symm
  · intro n x hidx m' h
    simp only [edit_map_indices, Option.some.injEq] at h
    exact h.symm
  · intro x hidx m' h
    simp only [edit_map_indices, Option.some.injEq] at h
    exact h.symm
  · intro a b x hidx m' h
    simp only [edit_map_indices, Option.some.injEq] at h
    exact h.symm
  · intro f x hidx m' h
    simp only [edit_map_indices, Option.some.injEq] at h
    exact h.symm
  · intro x hidx l' h
    simp only [editList, Option.some.injEq] at h
    exact h.symm
  · intro m ms indices hnone ih hidx l' h
    unfold editList at h
    rw [hnone] at h
    exact absurd h (by simp)
  · intro m ms indices m' hsome ihm ihl hidx l' h
    subst hidx
    unfold editList at h
    rw [hsome] at h
    rcases hl : editList ms [] with _ | ms'
    · rw [hl] at h
      exact absurd h (by simp)
    · rw [hl] at h
      simp only [Option.map_some', Option.some.injEq] at h
      rw [← h, ihm rfl m' hsome, ihl rfl ms' hl]

theorem editList_nil_id (l l' : List MapE) (h : editList l [] = some l') :
    l' = l := by
  have hm : edit_map_indices (.mlist l) [] = some (.mlist l') := by
    unfold edit_map_indices
    rw [h]
    rfl
  have := edit_map_indices_nil_id (.mlist l) [] rfl (.mlist l') hm
  injection this

theorem tieValidateLoop_unknown (st : ModelState) (first : String) :
    ∀ (pre : List String) (bad : String) (rest : List String) (acc : List Int),
      bad ∉ st.parameter_names →
      (pre ≠ [] → ∃ fp, pyDictGet st first = some fp) →
      (∀ x ∈ pre, x ∈ st.parameter_names ∧ ∃ px, pyDictGet st x = some px ∧
        some (px.renamed none) = lookupStripped st first) →
      ∃ acc', tieValidateLoop st first (pre ++ bad :: rest) acc =
        (acc', some .unknownParameter) := by
  intro pre
  induction pre with
  | nil =>
    intro bad rest acc hbad _ _
    rw [List.nil_append]
    unfold tieValidateLoop
    rw [if_neg hbad]
    exact ⟨acc, rfl⟩
  | cons x pre' ih =>
    intro bad rest acc hbad hf hpre
    obtain ⟨hxmem, px, hpx, hxeq⟩ := hpre x (by simp)
    obtain ⟨fp, hfp⟩ := hf (by simp)
    rw [List.cons_append]
    unfold tieValidateLoop
    rw [if_pos hxmem, hfp, hpx]
    dsimp only
    have heq : px.renamed none = fp.renamed none := by
      unfold lookupStripped at hxeq
      rw [hfp] at hxeq
      simpa using hxeq
    rw [if_pos heq]
    exact ih bad rest _ hbad (fun _ => ⟨fp, hfp⟩) (fun y hy => hpre y (by simp [hy]))

/-- C6 counterexample: `add_tie` with an empty name list does not fail with
the unknown-parameter error; on a model whose maps reference a parameter it
raises `IndexError` (from `indices[0]` inside `edit_map_indices`). -/
theorem C6_counterexample :
    add_tie exState5 [] none = (exState5, some .indexError) ∧
    TieErr.indexError ≠ TieErr.unknownParameter :=
  ⟨rfl, by simp⟩

/-- C6 amended: the validation loop of `add_tie` checks each name for
presence before any mutation, so when the first offending name (in iteration
order, among names whose predecessors are present and value-equal to the
first tied name) is absent from the registry, the call fails with the
unknown-parameter error and the state is returned unchanged; an empty name
list, however, is not validated: the call never produces the
unknown-parameter error and never mutates the state (it either completes as
a no-op or raises `IndexError`). -/
theorem C6_unknown_name_validation :
    (∀ (st : ModelState) (nn : Option String) (pre : List String) (bad : String)
        (rest : List String),
      bad ∉ st.parameter_names →
      (pre ≠ [] → ∃ fp, pyDictGet st ((pre ++ bad :: rest).headD "") = some fp) →
      (∀ x ∈ pre, x ∈ st.parameter_names ∧ ∃ px, pyDictGet st x = some px ∧
        some (px.renamed none) = lookupStripped st ((pre ++ bad :: rest).headD "")) →
      add_tie st (pre ++ bad :: rest) nn = (st, some .unknownParameter)) ∧
    (∀ (st : ModelState) (nn : Option String),
      (add_tie st [] nn).1 = st ∧
      (add_tie st [] nn).2 ≠ some TieErr.unknownParameter) := by
  constructor
  · intro st nn pre bad rest hbad hf hpre
    obtain ⟨acc', hv⟩ := tieValidateLoop_unknown st _ pre bad rest [] hbad hf hpre
    unfold add_tie
    rw [hv]
  · intro st nn
    cases nn with
    | some n =>
      have hred : add_tie st [] (some n) = (st, some .indexError) := rfl
      rw [hred]
      exact ⟨rfl, by simp⟩
    | none =>
      have hred : add_tie st [] none =
          (match editList st.maps [] with
           | none => (st, some TieErr.indexError)
           | some ms => ({ st with maps := ms }, none)) := rfl
      rw [hred]
      rcases hm : editList st.maps [] with _ | ms
      · exact ⟨rfl, by simp⟩
      · have hms : ms = st.maps := editList_nil_id _ _ hm
        subst hms
        refine ⟨?_, by simp⟩
        cases st
        rfl

/-- Witness for C6 at a concrete input: a tie list whose first name is
unknown fails with the unknown-parameter error and changes nothing. -/
theorem C6_unknown_name_validation_witness :
    add_tie exState5 (([] : List String) ++ "zzz" :: ["b"]) none =
      (exState5, some .unknownParameter) :=
  C6_unknown_name_validation.1 exState5 none [] "zzz" ["b"] (by decide)
    (fun h => absurd rfl h) (by simp)

/-! ### Claim C8: slot count under `add_tie` -/

theorem pyNormIdx_lt (len : Nat) (i : Int) (n : Nat)
    (h : pyNormIdx len i = some n) : n < len := by
  unfold pyNormIdx at h
  split at h
  · split at h
    · rename_i h0 hlt
      simp only [Option.some.injEq] at h
      omega
    · exact absurd h (by simp)
  · split at h
    · rename_i h0 hge
      simp only [Option.some.injEq] at h
      omega
    · exact absurd h (by simp)

theorem pyDelIdx_length (l : List α) (i : Int) (l2 : List α)
    (h : pyDelIdx l i = some l2) : l2.length + 1 = l.length := by
  unfold pyDelIdx at h
  rcases hn : pyNormIdx l.length i with _ | n
  · rw [hn] at h
    exact absurd h (by simp)
  · rw [hn] at h
    simp only [Option.map_some', Option.some.injEq] at h
    have hlt := pyNormIdx_lt _ _ _ hn
    rw [← h, List.length_eraseIdx]
    simp only [hlt, if_true]
    omega

theorem pyDelIdx_length_le (l : List α) (i : Int) (l2 : List α)
    (h : pyDelIdx l i = some l2) : l2.length ≤ l.length := by
  have := pyDelIdx_length l i l2 h
  omega

theorem deleteLoop_params_le :
    ∀ (l : List Int) (st : ModelState),
      (deleteLoop st l).1.parameters.length ≤ st.parameters.length := by
  intro l
  induction l with
  | nil => intro st; exact le_refl _
  | cons i rest ih =>
    intro st
    unfold deleteLoop
    rcases hp : pyDelIdx st.parameters i with _ | ps
    · exact le_refl _
    · rcases hn : pyDelIdx st.parameter_names i with _ | ns
      · simpa using pyDelIdx_length_le _ _ _ hp
      · calc (deleteLoop { st with parameters := ps, parameter_names := ns } rest).1.parameters.length
            ≤ ps.length := ih _
          _ ≤ st.parameters.length := pyDelIdx_length_le _ _ _ hp

theorem deleteLoop_ok_length :
    ∀ (l : List Int) (st st' : ModelState),
      deleteLoop st l = (st', none) →
      st'.parameters.length + l.length = st.parameters.length := by
  intro l
  induction l with
  | nil =>
    intro st st' h
    unfold deleteLoop at h
    simp only [Prod.mk.injEq] at h
    rw [← h.1]
    simp
  | cons i rest ih =>
    intro st st' h
    unfold deleteLoop at h
    rcases hp : pyDelIdx st.parameters i with _ | ps
    · rw [hp] at h
      exact absurd h (by simp)
    · rw [hp] at h
      rcases hn : pyDelIdx st.parameter_names i with _ | ns
      · rw [hn] at h
        exact absurd h (by simp)
      · rw [hn] at h
        have := ih _ _ h
        have hl := pyDelIdx_length _ _ _ hp
        simp only [List.length_cons] at this ⊢
        omega

theorem tieValidateLoop_ok_length (st : ModelState) (first : String) :
    ∀ (l : List String) (acc acc' : List Int),
      tieValidateLoop st first l acc = (acc', none) →
      acc'.length = acc.length + l.length := by
  intro l
  induction l with
  | nil =>
    intro acc acc' h
    unfold tieValidateLoop at h
    simp only [Prod.mk.injEq] at h
    rw [← h.1]
    simp
  | cons par rest ih =>
    intro acc acc' h
    unfold tieValidateLoop at h
    split at h
    · split at h
      · exact absurd h (by simp)
      · split at h
        · exact absurd h (by simp)
        · split at h
          · have := ih _ _ h
            simp only [List.length_append, List.length_cons, List.length_nil] at this ⊢
            omega
          · exact absurd h (by simp)
    · exact absurd h (by simp)

theorem sortedIndices_length (l : List Int) :
    (sortedIndices l).length = l.length :=
  (List.perm_insertionSort _ l).length_eq

/-- C8: (a) no `add_tie` call — whatever its outcome, including calls that
raise mid-way — ever increases the number of registry slots (and `add_tie` is
the only registry-mutating operation after construction); (b) amended
strictness: every `add_tie` call that completes without error and names at
least two parameters strictly decreases the slot count. -/
theorem C8_slot_count :
    (∀ (st st' : ModelState) (ties : List String) (nn : Option String)
        (e : Option TieErr),
      add_tie st ties nn = (st', e) →
      st'.parameters.length ≤ st.parameters.length) ∧
    (∀ (st st' : ModelState) (ties : List String) (nn : Option String),
      2 ≤ ties.length → add_tie st ties nn = (st', none) →
      st'.parameters.length < st.parameters.length) := by
  have hname : ∀ (st1 : ModelState) (nn : Option String) (indices : List Int)
      (st2 : ModelState) (e : Option TieErr),
      (match nn with
       | none => (st1, (none : Option TieErr))
       | some n =>
         match indices.head? with
         | none => (st1, some TieErr.indexError)
         | some i0 =>
           match pySetIdx st1.parameter_names i0 n with
           | none => (st1, some TieErr.indexError)
           | some ns => ({ st1 with parameter_names := ns }, none)) = (st2, e) →
      st2.parameters = st1.parameters := by
    intro st1 nn indices st2 e h
    cases nn with
    | none =>
      simp only [Prod.mk.injEq] at h
      rw [← h.1]
    | some n =>
      dsimp only at h
      split at h
      · simp only [Prod.mk.injEq] at h
        rw [← h.1]
      · split at h
        · simp only [Prod.mk.injEq] at h
          rw [← h.1]
        · simp only [Prod.mk.injEq] at h
          rw [← h.1]
  have hmain : ∀ (st st' : ModelState) (ties : List String) (nn : Option String)
      (e : Option TieErr),
      add_tie st ties nn = (st', e) →
      st'.parameters.length ≤ st.parameters.length ∧
      (e = none → 2 ≤ ties.length →
        st'.parameters.length < st.parameters.length) := by
    intro st st' ties nn e hA
    unfold add_tie at hA
    rcases hv : tieValidateLoop st (ties.headD "") ties [] with ⟨indices0, ev⟩
    rw [hv] at hA
    cases ev with
    | some e0 =>
      dsimp only at hA
      simp only [Prod.mk.injEq] at hA
      refine ⟨by rw [← hA.1], ?_⟩
      intro hnone
      rw [← hA.2] at hnone
      exact absurd hnone (by simp)
    | none =>
      dsimp only at hA
      rcases hd : deleteLoop st ((sortedIndices indices0).drop 1).reverse
        with ⟨st1, ed⟩
      rw [hd] at hA
      have h1le : st1.parameters.length ≤ st.parameters.length := by
        have : st1 = (deleteLoop st ((sortedIndices indices0).drop 1).reverse).1 := by
          rw [hd]
        rw [this]
        exact deleteLoop_params_le _ _
      cases ed with
      | some e1 =>
        dsimp only at hA
        simp only [Prod.mk.injEq] at hA
        refine ⟨by rw [← hA.1]; exact h1le, ?_⟩
        intro hnone
        rw [← hA.2] at hnone
        exact absurd hnone (by simp)
      | none =>
        dsimp only at hA
        rcases hn : (match nn with
          | none => (st1, (none : Option TieErr))
          | some n =>
            match (sortedIndices indices0).head? with
            | none => (st1, some TieErr.indexError)
            | some i0 =>
              match pySetIdx st1.parameter_names i0 n with
              | none => (st1, some TieErr.indexError)
              | some ns => ({ st1 with parameter_names := ns }, none))
          with ⟨st2, en⟩
        rw [hn] at hA
        have h2eq : st2.parameters = st1.parameters := hname st1 nn _ st2 en hn
        cases en with
        | some e2 =>
          dsimp only at hA
          simp only [Prod.mk.injEq] at hA
          refine ⟨by rw [← hA.1, h2eq]; exact h1le, ?_⟩
          intro hnone
          rw [← hA.2] at hnone
          exact absurd hnone (by simp)
        | none =>
          dsimp only at hA
          rcases he : editList st2.maps (sortedIndices indices0) with _ | ms
          · rw [he] at hA
            simp only [Prod.mk.injEq] at hA
            refine ⟨by rw [← hA.1, h2eq]; exact h1le, ?_⟩
            intro hnone
            rw [← hA.2] at hnone
            exact absurd hnone (by simp)
          · rw [he] at hA
            simp only [Prod.mk.injEq] at hA
            have hst' : st'.parameters = st1.parameters := by
              rw [← hA.1]
              dsimp only
              exact h2eq
            refine ⟨by rw [hst']; exact h1le, ?_⟩
            intro _ hlen2
            have hlen0 : indices0.length = ties.length := by
              simpa using tieValidateLoop_ok_length st _ ties [] indices0 hv
            have hdel := deleteLoop_ok_length _ _ _ hd
            have hdlen : (((sortedIndices indices0).drop 1).reverse).length =
                ties.length - 1 := by
              simp [sortedIndices_length, hlen0]
            rw [hst']
            rw [hdlen] at hdel
            omega
  constructor
  · intro st st' ties nn e hA
    exact (hmain st st' ties nn e hA).1
  · intro st st' ties nn h2 h
    exact (hmain st st' ties nn none h).2 rfl h2

/-- C8 counterexample: an `add_tie` call naming a single parameter completes
without error and leaves the slot count unchanged (nothing is deleted), so a
completed call does not always strictly decrease the slot count. -/
theorem C8_counterexample :
    add_tie exState5 ["a"] none = (exState5, none) ∧
    (add_tie exState5 ["a"] none).1.parameters.length =
      exState5.parameters.length :=
  ⟨rfl, rfl⟩

/-- Witness for C8 at a concrete input: the successful two-name tie on the
five-slot example strictly shrinks the registry. -/
theorem C8_slot_count_witness :
    (⟨[(0, priorA), (1, priorB), (2, priorA), (4, priorA)],
      ["a", "bd", "c", "e"],
      [.mlist [.mparam 0, .mparam 1, .mparam 2, .mparam 1, .mparam 3]]⟩ :
        ModelState).parameters.length < exState5.parameters.length :=
  C8_slot_count.2 exState5 _ ["b", "d"] (some "bd") (by decide) (by rfl)

/-! ### Claim C7: uniqueness of parameter names -/

theorem nodup_set_of_not_mem :
    ∀ (l : List String) (i : Nat) (a : String),
      l.Nodup → a ∉ l → (l.set i a).Nodup := by
  intro l
  induction l with
  | nil => intro i a _ _; simp
  | cons x rest ih =>
    intro i a hnd ha
    cases i with
    | zero =>
      simp only [List.set]
      rw [List.nodup_cons] at hnd ⊢
      exact ⟨fun hmem => ha (by simp [hmem]), hnd.2⟩
    | succ n =>
      simp only [List.set]
      rw [List.nodup_cons] at hnd ⊢
      refine ⟨?_, ih n a hnd.2 (fun hm => ha (by simp [hm]))⟩
      intro hxs
      rcases List.mem_or_eq_of_mem_set hxs with hm | rfl
      · exact hnd.1 hm
      · exact ha (by simp)

theorem check_for_ties_nodup (reg reg' : Registry) (pid : Nat) (p : Prior)
    (name : String) (i : Nat)
    (h : check_for_ties reg pid p name = some (reg', i))
    (hnd : reg.parameter_names.Nodup) : reg'.parameter_names.Nodup := by
  rcases hf : findTieIndex reg.parameters pid with _ | k
  · obtain ⟨-, -, fn, hn, hfn⟩ := check_for_ties_untied _ _ _ _ _ _ hf h
    rw [hn]
    rw [List.nodup_append]
    refine ⟨hnd, by simp, ?_⟩
    intro a ha hb
    simp only [List.mem_singleton] at hb
    rw [hb] at ha
    exact hfn ha
  · obtain ⟨-, -, -, hna⟩ := check_for_ties_tied _ _ _ _ _ _ _ hf h
    rcases hna with heq | ⟨nm, hget, hshared, hset⟩
    · rw [heq]; exact hnd
    · rw [hset]; exact nodup_set_of_not_mem _ _ _ hnd hshared

theorem convert_nodup :
    ∀ (fuel : Nat),
      (∀ (reg : Registry) (v : Value) (name : String) (reg' : Registry) (m : MapE),
        convert_to_map fuel reg v name = some (reg', m) →
        reg.parameter_names.Nodup → reg'.parameter_names.Nodup) ∧
      (∀ (reg : Registry) (pre : String) (pairs : List (String × Value))
          (reg' : Registry) (ms : List MapE),
        iterate_mapping fuel reg pre pairs = some (reg', ms) →
        reg.parameter_names.Nodup → reg'.parameter_names.Nodup) := by
  intro fuel
  induction fuel with
  | zero =>
    constructor
    · intro reg v name reg' m h
      simp [convert_to_map] at h
    · intro reg pre pairs reg' ms h
      simp [iterate_mapping] at h
  | succ n ih =>
    obtain ⟨ihc, ihi⟩ := ih
    constructor
    · intro reg v name reg' m h hnd
      cases v with
      | vlist xs =>
        unfold convert_to_map at h
        dsimp only at h
        rcases hit : iterate_mapping n reg (name ++ ".") (enumPairs 0 xs)
          with _ | ⟨r2, ms2⟩
        · rw [hit] at h; exact absurd h (by simp)
        · rw [hit] at h
          simp only [Option.map_some', Option.some.injEq, Prod.mk.injEq] at h
          rw [← h.1]
          exact ihi _ _ _ _ _ hit hnd
      | vtuple xs =>
        unfold convert_to_map at h
        dsimp only at h
        rcases hit : iterate_mapping n reg (name ++ ".") (enumPairs 0 xs)
          with _ | ⟨r2, ms2⟩
        · rw [hit] at h; exact absurd h (by simp)
        · rw [hit] at h
          simp only [Option.map_some', Option.some.injEq, Prod.mk.injEq] at h
          rw [← h.1]
          exact ihi _ _ _ _ _ hit hnd
      | vdict entries =>
        unfold convert_to_map at h
        dsimp only at h
        rcases hit : iterate_mapping n reg
            (if name.length > 0 then name ++ "." else "") entries
          with _ | ⟨r2, ms2⟩
        · rw [hit] at h; exact absurd h (by simp)
        · rw [hit] at h
          simp only [Option.map_some', Option.some.injEq, Prod.mk.injEq] at h
          rw [← h.1]
          exact ihi _ _ _ _ _ hit hnd
      | vxarray dim keys vals =>
        unfold convert_to_map at h
        dsimp only at h
        rcases hit : iterate_mapping n reg (name ++ ".") (keys.zip vals)
          with _ | ⟨r2, ms2⟩
        · rw [hit] at h; exact absurd h (by simp)
        · rw [hit] at h
          simp only [Option.map_some', Option.some.injEq, Prod.mk.injEq] at h
          rw [← h.1]
          exact ihi _ _ _ _ _ hit hnd
      | vcomplexPrior re im =>
        unfold convert_to_map at h
        dsimp only at h
        rcases hit : iterate_mapping n reg (name ++ ".") [("real", re), ("imag", im)]
          with _ | ⟨r2, ms2⟩
        · rw [hit] at h; exact absurd h (by simp)
        · rw [hit] at h
          simp only [Option.map_some', Option.some.injEq, Prod.mk.injEq] at h
          rw [← h.1]
          exact ihi _ _ _ _ _ hit hnd
      | vprior pid p =>
        unfold convert_to_map at h
        dsimp only at h
        rcases hct : check_for_ties reg pid p name with _ | ⟨r2, i2⟩
        · rw [hct] at h; exact absurd h (by simp)
        · rw [hct] at h
          simp only [Option.map_some', Option.some.injEq, Prod.mk.injEq] at h
          rw [← h.1]
          exact check_for_ties_nodup _ _ _ _ _ _ hct hnd
      | vint k =>
        unfold convert_to_map at h
        dsimp only at h
        simp only [Option.some.injEq, Prod.mk.injEq] at h
        rw [← h.1]; exact hnd
      | vstr s =>
        unfold convert_to_map at h
        dsimp only at h
        simp only [Option.some.injEq, Prod.mk.injEq] at h
        rw [← h.1]; exact hnd
      | vnone =>
        unfold convert_to_map at h
        dsimp only at h
        simp only [Option.some.injEq, Prod.mk.injEq] at h
        rw [← h.1]; exact hnd
      | vcomplex a b =>
        unfold convert_to_map at h
        dsimp only at h
        simp only [Option.some.injEq, Prod.mk.injEq] at h
        rw [← h.1]; exact hnd
      | vfunc f =>
        unfold convert_to_map at h
        dsimp only at h
        simp only [Option.some.injEq, Prod.mk.injEq] at h
        rw [← h.1]; exact hnd
    · intro reg pre pairs reg' ms h hnd
      cases pairs with
      | nil =>
        unfold iterate_mapping at h
        simp only [Option.some.injEq, Prod.mk.injEq] at h
        rw [← h.1]; exact hnd
      | cons sv rest =>
        rcases sv with ⟨sfx, v⟩
        unfold iterate_mapping at h
        rcases hc : convert_to_map n reg v (pre ++ sfx) with _ | ⟨r1, m1⟩
        · rw [hc] at h; exact absurd h (by simp)
        · rw [hc] at h
          dsimp only at h
          rcases hit : iterate_mapping n r1 pre rest with _ | ⟨r2, ms2⟩
          · rw [hit] at h; exact absurd h (by simp)
          · rw [hit] at h
            simp only [Option.some.injEq, Prod.mk.injEq] at h
            rw [← h.1]
            exact ihi _ _ _ _ _ hit (ihc _ _ _ _ _ hc hnd)

theorem model_init_nodup (fuel : Nat) (sp : List (String × Value))
    (mi iw ip ns : Value) (st : ModelState)
    (h : model_init fuel sp mi iw ip ns = some st) :
    st.parameter_names.Nodup := by
  unfold model_init at h
  dsimp only at h
  rcases h1 : convert_to_map fuel ⟨[], []⟩ (.vdict sp) "" with _ | ⟨r1, m1⟩
  · rw [h1] at h; exact absurd h (by simp)
  · rw [h1] at h
    dsimp only at h
    rcases h2 : convert_to_map fuel r1
        (.vdict (OPTICS_KEYS.zip [mi, iw, ip, ns])) "" with _ | ⟨r2, m2⟩
    · rw [h2] at h; exact absurd h (by simp)
    · rw [h2] at h
      simp only [Option.some.injEq] at h
      have hn1 := (convert_nodup fuel).1 _ _ _ _ _ h1 (by simp)
      have hn2 := (convert_nodup fuel).1 _ _ _ _ _ h2 hn1
      rw [← h]
      exact hn2

theorem pyDelIdx_sublist (l : List α) (i : Int) (l2 : List α)
    (h : pyDelIdx l i = some l2) : l2.Sublist l := by
  unfold pyDelIdx at h
  rcases hn : pyNormIdx l.length i with _ | n
  · rw [hn] at h; exact absurd h (by simp)
  · rw [hn] at h
    simp only [Option.map_some', Option.some.injEq] at h
    rw [← h]
    exact List.eraseIdx_sublist l n

theorem deleteLoop_names_sublist :
    ∀ (l : List Int) (st : ModelState),
      (deleteLoop st l).1.parameter_names.Sublist st.parameter_names := by
  intro l
  induction l with
  | nil => intro st; exact List.Sublist.refl _
  | cons i rest ih =>
    intro st
    unfold deleteLoop
    rcases hp : pyDelIdx st.parameters i with _ | ps
    · exact List.Sublist.refl _
    · rcases hn : pyDelIdx st.parameter_names i with _ | nsv
      · exact List.Sublist.refl _
      · exact (ih _).trans (pyDelIdx_sublist _ _ _ hn)

theorem add_tie_nodup (st st' : ModelState) (ties : List String)
    (nn : Option String) (e : Option TieErr)
    (hA : add_tie st ties nn = (st', e))
    (hnd : st.parameter_names.Nodup)
    (hfresh : ∀ n, nn = some n → n ∉ st.parameter_names) :
    st'.parameter_names.Nodup := by
  unfold add_tie at hA
  rcases hv : tieValidateLoop st (ties.headD "") ties [] with ⟨indices0, ev⟩
  rw [hv] at hA
  cases ev with
  | some e0 =>
    dsimp only at hA
    simp only [Prod.mk.injEq] at hA
    rw [← hA.1]
    exact hnd
  | none =>
    dsimp only at hA
    rcases hd : deleteLoop st ((sortedIndices indices0).drop 1).reverse
      with ⟨st1, ed⟩
    rw [hd] at hA
    have hsub : st1.parameter_names.Sublist st.parameter_names := by
      have := deleteLoop_names_sublist ((sortedIndices indices0).drop 1).reverse st
      rwa [hd] at this
    have hnd1 : st1.parameter_names.Nodup := hsub.nodup hnd
    have hfresh1 : ∀ n, nn = some n → n ∉ st1.parameter_names :=
      fun n hn hmem => hfresh n hn (hsub.subset hmem)
    cases ed with
    | some e1 =>
      dsimp only at hA
      simp only [Prod.mk.injEq] at hA
      rw [← hA.1]
      exact hnd1
    | none =>
      dsimp only at hA
      rcases hn : (match nn with
        | none => (st1, (none : Option TieErr))
        | some n =>
          match (sortedIndices indices0).head? with
          | none => (st1, some TieErr.indexError)
          | some i0 =>
            match pySetIdx st1.parameter_names i0 n with
            | none => (st1, some TieErr.indexError)
            | some nsv => ({ st1 with parameter_names := nsv }, none))
        with ⟨st2, en⟩
      rw [hn] at hA
      have hnd2 : st2.parameter_names.Nodup := by
        cases nn with
        | none =>
          simp only [Prod.mk.injEq] at hn
          rw [← hn.1]
          exact hnd1
        | some n0 =>
          dsimp only at hn
          split at hn
          · simp only [Prod.mk.injEq] at hn
            rw [← hn.1]
            exact hnd1
          · rename_i i0 hi0
            rcases hs : pySetIdx st1.parameter_names i0 n0 with _ | nsv
            · rw [hs] at hn
              simp only [Prod.mk.injEq] at hn
              rw [← hn.1]
              exact hnd1
            · rw [hs] at hn
              simp only [Prod.mk.injEq] at hn
              rw [← hn.1]
              unfold pySetIdx at hs
              rcases hnm : pyNormIdx st1.parameter_names.length i0 with _ | k
              · rw [hnm] at hs; exact absurd hs (by simp)
              · rw [hnm] at hs
                simp only [Option.map_some', Option.some.injEq] at hs
                rw [← hs]
                dsimp only
                exact nodup_set_of_not_mem _ _ _ hnd1 (hfresh1 n0 rfl)
      cases en with
      | some e2 =>
        dsimp only at hA
        simp only [Prod.mk.injEq] at hA
        rw [← hA.1]
        exact hnd2
      | none =>
        dsimp only at hA
        rcases he : editList st2.maps (sortedIndices indices0) with _ | ms
        · rw [he] at hA
          simp only [Prod.mk.injEq] at hA
          rw [← hA.1]
          exact hnd2
        · rw [he] at hA
          simp only [Prod.mk.injEq] at hA
          rw [← hA.1]
          exact hnd2

/-- The model states reachable by the engine: a state built by
`Model.__init__`, or the result (normal or exceptional) of an `add_tie` call
on a reachable state whose `new_name`, when given, is not already a parameter
name. -/
inductive Reachable : ModelState → Prop
  | init (fuel : Nat) (sp : List (String × Value)) (mi iw ip ns : Value)
      (st : ModelState) :
      model_init fuel sp mi iw ip ns = some st → Reachable st
  | tie (st st' : ModelState) (ties : List String) (nn : Option String)
      (e : Option TieErr) :
      Reachable st → (∀ n, nn = some n → n ∉ st.parameter_names) →
      add_tie st ties nn = (st', e) → Reachable st'

/-- C7 counterexample: `add_tie` installs a caller-supplied `new_name`
without any uniqueness check, so a tie renamed to an existing parameter name
produces a reachable state with duplicate names. -/
theorem C7_counterexample :
    model_init 6 [("a", .vprior 10 priorB), ("b", .vprior 11 priorB),
        ("c", .vprior 12 priorA)] .vnone .vnone .vnone .vnone =
      some ⟨[(10, priorB), (11, priorB), (12, priorA)], ["a", "b", "c"],
        [.mlist [.mfunc .fdict, .mlist [.mlist
           [.mlist [.mstr "a", .mparam 0], .mlist [.mstr "b", .mparam 1],
            .mlist [.mstr "c", .mparam 2]]]],
         .mlist [.mfunc .fdict, .mlist [.mlist []]]]⟩ ∧
    add_tie ⟨[(10, priorB), (11, priorB), (12, priorA)], ["a", "b", "c"],
        [.mlist [.mfunc .fdict, .mlist [.mlist
           [.mlist [.mstr "a", .mparam 0], .mlist [.mstr "b", .mparam 1],
            .mlist [.mstr "c", .mparam 2]]]],
         .mlist [.mfunc .fdict, .mlist [.mlist []]]]⟩ ["a", "b"] (some "c") =
      (⟨[(10, priorB), (12, priorA)], ["c", "c"],
        [.mlist [.mfunc .fdict, .mlist [.mlist
           [.mlist [.mstr "a", .mparam 0], .mlist [.mstr "b", .mparam 0],
            .mlist [.mstr "c", .mparam 1]]]],
         .mlist [.mfunc .fdict, .mlist [.mlist []]]]⟩, none) ∧
    ¬ (["c", "c"] : List String).Nodup :=
  ⟨rfl, rfl, by decide⟩

/-- C7 amended: parameter names are pairwise distinct at construction time
and stay distinct under every `add_tie` call whose `new_name`, when given, is
not already one of the parameter names (the code installs `new_name` with no
uniqueness check, so a colliding rename breaks the invariant). -/
theorem C7_unique_names (st : ModelState) (h : Reachable st) :
    st.parameter_names.Nodup := by
  induction h with
  | init fuel sp mi iw ip ns st hinit => exact model_init_nodup _ _ _ _ _ _ _ hinit
  | tie st st' ties nn e hr hfresh htie ih => exact add_tie_nodup _ _ _ _ _ htie ih hfresh

/-- Witness for C7 at a concrete input: the names of a freshly built
three-parameter model are pairwise distinct. -/
theorem C7_unique_names_witness :
    (⟨[(10, priorB), (11, priorB), (12, priorA)], ["a", "b", "c"],
      [.mlist [.mfunc .fdict, .mlist [.mlist
         [.mlist [.mstr "a", .mparam 0], .mlist [.mstr "b", .mparam 1],
          .mlist [.mstr "c", .mparam 2]]]],
       .mlist [.mfunc .fdict, .mlist [.mlist []]]]⟩ :
        ModelState).parameter_names.Nodup :=
  C7_unique_names _ (Reachable.init 6
    [("a", .vprior 10 priorB), ("b", .vprior 11 priorB), ("c", .vprior 12 priorA)]
    .vnone .vnone .vnone .vnone _ (by rfl))

/-! ### Claim C10: constant leaves -/

/-- The `else` fall-through of `_convert_to_map`'s dispatch: values that are
not sequences, mappings, labelled arrays, complex priors, or priors. -/
def isConstLeaf : Value → Bool
  | .vlist _ => false
  | .vtuple _ => false
  | .vdict _ => false
  | .vxarray _ _ _ => false
  | .vcomplexPrior _ _ => false
  | .vprior _ _ => false
  | _ => true

/-- C10 counterexample: a constant string leaf carrying the reserved
`'_parameter_'` prefix is stored verbatim in the map, but `read_map`
re-parses it as a placeholder and returns `values[0]` instead of the string
itself. -/
theorem C10_counterexample :
    isConstLeaf (.vstr "_parameter_0") = true ∧
    convert_to_map 1 ⟨[], []⟩ (.vstr "_parameter_0") "n" =
      some (⟨[], []⟩, .mstr "_parameter_0") ∧
    read_map (.mstr "_parameter_0") [.vint 7] = some (.vint 7) ∧
    Value.vint 7 ≠ Value.vstr "_parameter_0" :=
  ⟨rfl, rfl, rfl, fun h => Value.noConfusion h⟩

/-- C10 amended: every fixed constant leaf that is not a string beginning
with `'_parameter_'` is stored verbatim by map building (with the registry
untouched) and returned verbatim by `read_map` under every values vector. -/
theorem C10_constant_verbatim (fuel : Nat) (reg : Registry) (name : String)
    (v : Value) (vals : List Value)
    (hconst : isConstLeaf v = true)
    (hstr : ∀ s, v = .vstr s → isParameterString s = false) :
    ∃ m, convert_to_map (fuel + 1) reg v name = some (reg, m) ∧
      read_map m vals = some v := by
  cases v with
  | vint n => exact ⟨.mint n, rfl, rfl⟩
  | vstr s =>
    refine ⟨.mstr s, rfl, ?_⟩
    unfold read_map
    rw [hstr s rfl]
    simp
  | vnone => exact ⟨.mnone, rfl, rfl⟩
  | vcomplex a b => exact ⟨.mcomplexc a b, rfl, rfl⟩
  | vfunc f => exact ⟨.mfunc f, rfl, rfl⟩
  | vprior pid p => exact absurd hconst (by simp [isConstLeaf])
  | vcomplexPrior re im => exact absurd hconst (by simp [isConstLeaf])
  | vlist xs => exact absurd hconst (by simp [isConstLeaf])
  | vtuple xs => exact absurd hconst (by simp [isConstLeaf])
  | vdict es => exact absurd hconst (by simp [isConstLeaf])
  | vxarray dim keys vs => exact absurd hconst (by simp [isConstLeaf])

/-- Witness for C10 at a concrete input: the integer constant 42 survives the
round trip verbatim. -/
theorem C10_constant_verbatim_witness :
    ∃ m, convert_to_map 1 ⟨[], []⟩ (.vint 42) "nm" = some (⟨[], []⟩, m) ∧
      read_map m [] = some (.vint 42) :=
  C10_constant_verbatim 0 ⟨[], []⟩ "nm" (.vint 42) [] (by decide)
    (fun s hs => Value.noConfusion hs)

/-! ### Claim C1: the round trip -/

theorem ValsOK_mono (ps ps' : List (Nat × Prior)) (vals : List Value)
    (hpre : ps <+: ps') (h : ValsOK ps' vals) : ValsOK ps vals := by
  intro i e hi
  obtain ⟨t, ht⟩ := hpre
  apply h i e
  rw [← ht]
  rw [List.get?_append]
  · exact hi
  · exact List.get?_eq_some.mp hi |>.1

theorem enumPairs_map_snd : ∀ (i : Nat) (xs : List Value),
    (enumPairs i xs).map Prod.snd = xs := by
  intro i xs
  induction xs generalizing i with
  | nil => rfl
  | cons x rest ih => simp [enumPairs, ih]

theorem zip_fst_snd {α β : Type} : ∀ (l : List (α × β)),
    (l.map Prod.fst).zip (l.map Prod.snd) = l := by
  intro l
  induction l with
  | nil => rfl
  | cons e rest ih => simp [ih]

theorem map_snd_zip_eq {α β : Type} : ∀ (ks : List α) (vs : List β),
    ks.length = vs.length → (ks.zip vs).map Prod.snd = vs := by
  intro ks
  induction ks with
  | nil =>
    intro vs h
    cases vs with
    | nil => rfl
    | cons v rest => simp at h
  | cons k krest ih =>
    intro vs h
    cases vs with
    | nil => simp at h
    | cons v rest =>
      simp only [List.zip_cons_cons, List.map_cons]
      rw [ih rest (by simpa using h)]

/-- A value converts to the constant `None` map entry exactly when it is the
Python `None` value. -/
theorem convert_mnone_iff (fuel : Nat) (reg : Registry) (v : Value)
    (name : String) (reg' : Registry) (m : MapE)
    (h : convert_to_map fuel reg v name = some (reg', m)) :
    m = .mnone ↔ v = .vnone := by
  cases fuel with
  | zero => simp [convert_to_map] at h
  | succ n =>
    cases v with
    | vlist xs =>
      unfold convert_to_map at h
      dsimp only at h
      rcases hit : iterate_mapping n reg (name ++ ".") (enumPairs 0 xs) with _ | rm
      · rw [hit] at h; exact absurd h (by simp)
      · rw [hit] at h
        simp only [Option.map_some', Option.some.injEq, Prod.mk.injEq] at h
        rw [← h.2]
        constructor <;> (intro hh; first | exact MapE.noConfusion hh | exact Value.noConfusion hh)
    | vtuple xs =>
      unfold convert_to_map at h
      dsimp only at h
      rcases hit : iterate_mapping n reg (name ++ ".") (enumPairs 0 xs) with _ | rm
      · rw [hit] at h; exact absurd h (by simp)
      · rw [hit] at h
        simp only [Option.map_some', Option.some.injEq, Prod.mk.injEq] at h
        rw [← h.2]
        constructor <;> (intro hh; first | exact MapE.noConfusion hh | exact Value.noConfusion hh)
    | vdict entries =>
      unfold convert_to_map at h
      dsimp only at h
      rcases hit : iterate_mapping n reg
          (if name.length > 0 then name ++ "." else "") entries with _ | rm
      · rw [hit] at h; exact absurd h (by simp)
      · rw [hit] at h
        simp only [Option.map_some', Option.some.injEq, Prod.mk.injEq] at h
        rw [← h.2]
        constructor <;> (intro hh; first | exact MapE.noConfusion hh | exact Value.noConfusion hh)
    | vxarray dim keys vs =>
      unfold convert_to_map at h
      dsimp only at h
      rcases hit : iterate_mapping n reg (name ++ ".") (keys.zip vs) with _ | rm
      · rw [hit] at h; exact absurd h (by simp)
      · rw [hit] at h
        simp only [Option.map_some', Option.some.injEq, Prod.mk.injEq] at h
        rw [← h.2]
        constructor <;> (intro hh; first | exact MapE.noConfusion hh | exact Value.noConfusion hh)
    | vcomplexPrior re im =>
      unfold convert_to_map at h
      dsimp only at h
      rcases hit : iterate_mapping n reg (name ++ ".") [("real", re), ("imag", im)]
        with _ | rm
      · rw [hit] at h; exact absurd h (by simp)
      · rw [hit] at h
        simp only [Option.map_some', Option.some.injEq, Prod.mk.injEq] at h
        rw [← h.2]
        constructor <;> (intro hh; first | exact MapE.noConfusion hh | exact Value.noConfusion hh)
    | vprior pid p =>
      unfold convert_to_map at h
      dsimp only at h
      rcases hct : check_for_ties reg pid p name with _ | ri
      · rw [hct] at h; exact absurd h (by simp)
      · rw [hct] at h
        simp only [Option.map_some', Option.some.injEq, Prod.mk.injEq] at h
        rw [← h.2]
        constructor <;> (intro hh; first | exact MapE.noConfusion hh | exact Value.noConfusion hh)
    | vint k =>
      unfold convert_to_map at h
      simp only [Option.some.injEq, Prod.mk.injEq] at h
      rw [← h.2]
      constructor <;> (intro hh; first | exact MapE.noConfusion hh | exact Value.noConfusion hh)
    | vstr s =>
      unfold convert_to_map at h
      simp only [Option.some.injEq, Prod.mk.injEq] at h
      rw [← h.2]
      constructor <;> (intro hh; first | exact MapE.noConfusion hh | exact Value.noConfusion hh)
    | vnone =>
      unfold convert_to_map at h
      simp only [Option.some.injEq, Prod.mk.injEq] at h
      rw [← h.2]
      simp
    | vcomplex a b =>
      unfold convert_to_map at h
      simp only [Option.some.injEq, Prod.mk.injEq] at h
      rw [← h.2]
      constructor <;> (intro hh; first | exact MapE.noConfusion hh | exact Value.noConfusion hh)
    | vfunc f =>
      unfold convert_to_map at h
      simp only [Option.some.injEq, Prod.mk.injEq] at h
      rw [← h.2]
      constructor <;> (intro hh; first | exact MapE.noConfusion hh | exact Value.noConfusion hh)

/-- A well-formed value (which excludes callables) never converts to a stored
callable, so the two-element-list apply detection of `read_map` cannot be
triggered by converted children. -/
theorem convert_asCallable_none (fuel : Nat) (reg : Registry) (v : Value)
    (name : String) (reg' : Registry) (m : MapE)
    (h : convert_to_map fuel reg v name = some (reg', m))
    (hwf : wfV v = true) : asCallable m = none := by
  cases fuel with
  | zero => simp [convert_to_map] at h
  | succ n =>
    cases v with
    | vlist xs =>
      unfold convert_to_map at h
      dsimp only at h
      rcases hit : iterate_mapping n reg (name ++ ".") (enumPairs 0 xs) with _ | rm
      · rw [hit] at h; exact absurd h (by simp)
      · rw [hit] at h
        simp only [Option.map_some', Option.some.injEq, Prod.mk.injEq] at h
        rw [← h.2]; rfl
    | vtuple xs =>
      unfold convert_to_map at h
      dsimp only at h
      rcases hit : iterate_mapping n reg (name ++ ".") (enumPairs 0 xs) with _ | rm
      · rw [hit] at h; exact absurd h (by simp)
      · rw [hit] at h
        simp only [Option.map_some', Option.some.injEq, Prod.mk.injEq] at h
        rw [← h.2]; rfl
    | vdict entries =>
      unfold convert_to_map at h
      dsimp only at h
      rcases hit : iterate_mapping n reg
          (if name.length > 0 then name ++ "." else "") entries with _ | rm
      · rw [hit] at h; exact absurd h (by simp)
      · rw [hit] at h
        simp only [Option.map_some', Option.some.injEq, Prod.mk.injEq] at h
        rw [← h.2]; rfl
    | vxarray dim keys vs =>
      unfold convert_to_map at h
      dsimp only at h
      rcases hit : iterate_mapping n reg (name ++ ".") (keys.zip vs) with _ | rm
      · rw [hit] at h; exact absurd h (by simp)
      · rw [hit] at h
        simp only [Option.map_some', Option.some.injEq, Prod.mk.injEq] at h
        rw [← h.2]; rfl
    | vcomplexPrior re im =>
      unfold convert_to_map at h
      dsimp only at h
      rcases hit : iterate_mapping n reg (name ++ ".") [("real", re), ("imag", im)]
        with _ | rm
      · rw [hit] at h; exact absurd h (by simp)
      · rw [hit] at h
        simp only [Option.map_some', Option.some.injEq, Prod.mk.injEq] at h
        rw [← h.2]; rfl
    | vprior pid p =>
      unfold convert_to_map at h
      dsimp only at h
      rcases hct : check_for_ties reg pid p name with _ | ri
      · rw [hct] at h; exact absurd h (by simp)
      · rw [hct] at h
        simp only [Option.map_some', Option.some.injEq, Prod.mk.injEq] at h
        rw [← h.2]; rfl
    | vint k =>
      unfold convert_to_map at h
      simp only [Option.some.injEq, Prod.mk.injEq] at h
      rw [← h.2]; rfl
    | vstr s =>
      unfold convert_to_map at h
      simp only [Option.some.injEq, Prod.mk.injEq] at h
      rw [← h.2]; rfl
    | vnone =>
      unfold convert_to_map at h
      simp only [Option.some.injEq, Prod.mk.injEq] at h
      rw [← h.2]; rfl
    | vcomplex a b =>
      unfold convert_to_map at h
      simp only [Option.some.injEq, Prod.mk.injEq] at h
      rw [← h.2]; rfl
    | vfunc f => exact absurd hwf (by simp [wfV])

/-- The pointwise facts carried along a converted sequence: each built entry
reads back to the guess-substituted original, is the `None` constant exactly
when the original is `None`, and is never a stored callable. -/
def PairwiseRead : List MapE → List Value → List Value → Prop
  | [], [], _ => True
  | mv :: ms, v :: vs, vals =>
    read_map mv vals = some (substGuess v) ∧ (mv = .mnone ↔ v = .vnone) ∧
      asCallable mv = none ∧ PairwiseRead ms vs vals
  | _, _, _ => False

theorem readList_of_pairwise :
    ∀ (ms : List MapE) (vs : List Value) (vals : List Value),
      PairwiseRead ms vs vals → readList ms vals = some (substGuessList vs) := by
  intro ms
  induction ms with
  | nil =>
    intro vs vals h
    cases vs with
    | nil => rfl
    | cons v rest => exact absurd h (by simp [PairwiseRead])
  | cons mv rest ih =>
    intro vs vals h
    cases vs with
    | nil => exact absurd h (by simp [PairwiseRead])
    | cons v vrest =>
      obtain ⟨hr, -, -, hrest⟩ := h
      unfold readList
      rw [hr, ih vrest vals hrest]
      rfl

/-- Reading a built list whose head is not a callable is the plain
elementwise read. -/
theorem read_mlist_plain (l : List MapE) (vals : List Value)
    (h : asCallable (l.headD .mnone) = none) :
    read_map (.mlist l) vals = (readList l vals).map Value.vlist := by
  match l with
  | [] => rfl
  | [a] =>
    unfold read_map readList
    cases hra : read_map a vals with
    | none => rfl
    | some v0 => rfl
  | [a, b] =>
    have ha : asCallable a = none := h
    unfold read_map
    rw [ha]
    unfold readList
    cases hra : read_map a vals with
    | none => rfl
    | some v0 =>
      unfold readList
      cases hrb : read_map b vals with
      | none => rfl
      | some v1 => rfl
  | a :: b :: c :: rest => rfl

theorem substGuessEntries_eq : ∀ (l : List (String × Value)),
    substGuessEntries l =
      (l.filter (fun kv => !isVNone kv.2)).map
        (fun kv => (kv.1, substGuess kv.2)) := by
  intro l
  induction l with
  | nil => rfl
  | cons e rest ih =>
    rcases e with ⟨k, v⟩
    by_cases hv : isVNone v = true
    · rw [substGuessEntries, if_pos hv]
      rw [List.filter_cons]
      simp only [hv, Bool.not_true, if_false]
      exact ih
    · rw [substGuessEntries, if_neg hv]
      rw [List.filter_cons]
      simp only [Bool.not_eq_true] at hv
      simp only [hv, Bool.not_false, if_true, List.map_cons]
      rw [ih]

theorem pairsOfValues_map : ∀ (l : List (String × Value)),
    pairsOfValues (l.map (fun kv => Value.vlist [.vstr kv.1, kv.2])) = some l := by
  intro l
  induction l with
  | nil => rfl
  | cons e rest ih =>
    rcases e with ⟨k, v⟩
    simp only [List.map_cons]
    unfold pairsOfValues
    rw [ih]
    rfl

theorem stringsOfValues_map : ∀ (keys : List String),
    stringsOfValues (keys.map Value.vstr) = some keys := by
  intro keys
  induction keys with
  | nil => rfl
  | cons k rest ih =>
    simp only [List.map_cons]
    unfold stringsOfValues
    rw [ih]
    rfl

theorem readList_mstr : ∀ (keys : List String) (vals : List Value),
    (∀ k ∈ keys, isParameterString k = false) →
    readList (keys.map MapE.mstr) vals = some (keys.map Value.vstr) := by
  intro keys
  induction keys with
  | nil => intro vals _; rfl
  | cons k rest ih =>
    intro vals hk
    simp only [List.map_cons]
    unfold readList
    have hrk : read_map (.mstr k) vals = some (.vstr k) := by
      unfold read_map
      rw [hk k (by simp)]
      simp
    rw [hrk, ih vals (fun x hx => hk x (by simp [hx]))]
    rfl

theorem isNumOrPrior_substGuess (v : Value) (h : isNumOrPrior v = true) :
    ∃ a, substGuess v = .vint a := by
  cases v <;> simp [isNumOrPrior] at h
  · exact ⟨_, rfl⟩
  · exact ⟨_, rfl⟩

theorem pyGetIdx_nat (vals : List Value) (i : Nat) (h : i < vals.length) :
    pyGetIdx vals (i : Int) = vals.get? i := by
  unfold pyGetIdx pyNormIdx
  rw [if_pos (Int.ofNat_nonneg i)]
  rw [if_pos (by exact_mod_cast h)]
  simp

theorem wfVEntries_parts : ∀ (l : List (String × Value)),
    wfVEntries l = true →
    (∀ k ∈ l.map Prod.fst, isParameterString k = false) ∧
      wfVList (l.map Prod.snd) = true := by
  intro l
  induction l with
  | nil => intro _; exact ⟨by simp, rfl⟩
  | cons e rest ih =>
    rcases e with ⟨k, v⟩
    intro h
    rw [wfVEntries] at h
    simp only [Bool.and_eq_true, Bool.not_eq_true'] at h
    obtain ⟨⟨hk, hv⟩, hrest⟩ := h
    obtain ⟨ihk, ihv⟩ := ih hrest
    constructor
    · intro x hx
      simp only [List.map_cons, List.mem_cons] at hx
      rcases hx with rfl | hx
      · exact hk
      · exact ihk x hx
    · simp only [List.map_cons]
      rw [wfVList]
      simp [hv, ihv]

theorem occBEntries_eq_list (pid : Nat) (p : Prior) :
    ∀ (l : List (String × Value)),
      occBEntries pid p l = occBList pid p (l.map Prod.snd) := by
  intro l
  induction l with
  | nil => rfl
  | cons e rest ih =>
    simp only [List.map_cons]
    rw [occBEntries, occBList, ih]

theorem isMNone_eq (mv : MapE) (h : isMNone mv = true) : mv = .mnone := by
  cases mv <;> simp [isMNone] at h ⊢

theorem dictArgs_read :
    ∀ (ms : List MapE) (vs : List Value) (vals : List Value) (keys : List String),
      PairwiseRead ms vs vals →
      (∀ k ∈ keys, isParameterString k = false) →
      readList (((keys.zip ms).filter (fun kv => !isMNone kv.2)).map
          (fun kv => MapE.mlist [.mstr kv.1, kv.2])) vals =
        some (((keys.zip vs).filter (fun kv => !isVNone kv.2)).map
          (fun kv => Value.vlist [.vstr kv.1, substGuess kv.2])) := by
  intro ms
  induction ms with
  | nil =>
    intro vs vals keys hp hk
    cases vs with
    | nil => simp [readList]
    | cons v vrest => exact absurd hp (by simp [PairwiseRead])
  | cons mv mrest ih =>
    intro vs vals keys hp hk
    cases vs with
    | nil => exact absurd hp (by simp [PairwiseRead])
    | cons v vrest =>
      obtain ⟨hr, hiff, hcall, hrest⟩ := hp
      cases keys with
      | nil => simp [readList]
      | cons k krest =>
        have hk0 : isParameterString k = false := hk k (by simp)
        have hkrest : ∀ x ∈ krest, isParameterString x = false :=
          fun x hx => hk x (by simp [hx])
        simp only [List.zip_cons_cons, List.filter_cons]
        by_cases hm : isMNone mv = true
        · have hmv : mv = .mnone := isMNone_eq mv hm
          have hv : v = .vnone := hiff.mp hmv
          have hvn : isVNone v = true := by rw [hv]; rfl
          simp only [hm, hvn, Bool.not_true, if_false]
          exact ih vrest vals krest hrest hkrest
        · have hvn : isVNone v = false := by
            rcases hvv : isVNone v with _ | _
            · rfl
            · exfalso
              have : v = .vnone := by cases v <;> simp [isVNone] at hvv ⊢
              exact hm (by rw [hiff.mpr this]; rfl)
          simp only [hm, hvn, Bool.not_false, if_true, List.map_cons]
          have hpair : read_map (.mlist [.mstr k, mv]) vals =
              some (.vlist [.vstr k, substGuess v]) := by
            unfold read_map
            dsimp only [asCallable]
            have hrk : read_map (.mstr k) vals = some (.vstr k) := by
              unfold read_map
              rw [hk0]
              simp
            rw [hrk, hr]
          unfold readList
          rw [hpair, ih vrest vals krest hrest hkrest]
          rfl

theorem pairwise_headD_callable (ms : List MapE) (vs : List Value)
    (vals : List Value) (hp : PairwiseRead ms vs vals) :
    asCallable (ms.headD .mnone) = none := by
  cases ms with
  | nil => rfl
  | cons mv rest =>
    cases vs with
    | nil => exact absurd hp (by simp [PairwiseRead])
    | cons v vrest => exact hp.2.2.1

/-- The central soundness statement of the round trip: a conversion started
in a registry whose entries all satisfy an id-consistent predicate `P`
(standing for "this object occurs in the full configuration") extends the
registry by appending only, keeps the predicate, and produces a map that —
under any values vector agreeing with the final registry's guesses — reads
back to the guess-substituted original value. -/
theorem convert_read_sound (P : Nat → Prior → Prop)
    (hP : ∀ pid p q, P pid p → P pid q → p = q) :
    ∀ (fuel : Nat),
      (∀ (reg : Registry) (v : Value) (name : String) (reg' : Registry) (m : MapE),
        convert_to_map fuel reg v name = some (reg', m) →
        wfV v = true →
        (∀ pid p, occB pid p v = true → P pid p) →
        (∀ e ∈ reg.parameters, P e.1 e.2) →
        (reg.parameters <+: reg'.parameters) ∧
        (∀ e ∈ reg'.parameters, P e.1 e.2) ∧
        (∀ vals, ValsOK reg'.parameters vals →
          read_map m vals = some (substGuess v))) ∧
      (∀ (reg : Registry) (pre : String) (pairs : List (String × Value))
          (reg' : Registry) (ms : List MapE),
        iterate_mapping fuel reg pre pairs = some (reg', ms) →
        wfVList (pairs.map Prod.snd) = true →
        (∀ pid p, occBList pid p (pairs.map Prod.snd) = true → P pid p) →
        (∀ e ∈ reg.parameters, P e.1 e.2) →
        (reg.parameters <+: reg'.parameters) ∧
        (∀ e ∈ reg'.parameters, P e.1 e.2) ∧
        (∀ vals, ValsOK reg'.parameters vals →
          PairwiseRead ms (pairs.map Prod.snd) vals)) := by
  intro fuel
  induction fuel with
  | zero =>
    constructor
    · intro reg v name reg' m h
      simp [convert_to_map] at h
    · intro reg pre pairs reg' ms h
      simp [iterate_mapping] at h
  | succ n ih =>
    obtain ⟨ihc, ihi⟩ := ih
    constructor
    · intro reg v name reg' m h hwf hocc hreg
      cases v with
      | vlist xs =>
        unfold convert_to_map at h
        dsimp only at h
        rcases hit : iterate_mapping n reg (name ++ ".") (enumPairs 0 xs)
          with _ | ⟨r2, ms2⟩
        · rw [hit] at h; exact absurd h (by simp)
        · rw [hit] at h
          simp only [Option.map_some', Option.some.injEq, Prod.mk.injEq] at h
          obtain ⟨hr, hm⟩ := h
          have hsnd : (enumPairs 0 xs).map Prod.snd = xs := enumPairs_map_snd 0 xs
          have hwf' : wfVList ((enumPairs 0 xs).map Prod.snd) = true := by
            rw [hsnd]; exact hwf
          have hocc' : ∀ pid p,
              occBList pid p ((enumPairs 0 xs).map Prod.snd) = true → P pid p := by
            rw [hsnd]; exact hocc
          obtain ⟨hpre, hPk, hread⟩ := ihi _ _ _ _ _ hit hwf' hocc' hreg
          rw [← hr]
          refine ⟨hpre, hPk, ?_⟩
          intro vals hok
          have hpw := hread vals hok
          rw [hsnd] at hpw
          rw [← hm]
          rw [read_mlist_plain _ _ (pairwise_headD_callable _ _ _ hpw)]
          rw [readList_of_pairwise _ _ _ hpw]
          rfl
      | vtuple xs =>
        unfold convert_to_map at h
        dsimp only at h
        rcases hit : iterate_mapping n reg (name ++ ".") (enumPairs 0 xs)
          with _ | ⟨r2, ms2⟩
        · rw [hit] at h; exact absurd h (by simp)
        · rw [hit] at h
          simp only [Option.map_some', Option.some.injEq, Prod.mk.injEq] at h
          obtain ⟨hr, hm⟩ := h
          have hsnd : (enumPairs 0 xs).map Prod.snd = xs := enumPairs_map_snd 0 xs
          have hwf' : wfVList ((enumPairs 0 xs).map Prod.snd) = true := by
            rw [hsnd]; exact hwf
          have hocc' : ∀ pid p,
              occBList pid p ((enumPairs 0 xs).map Prod.snd) = true → P pid p := by
            rw [hsnd]; exact hocc
          obtain ⟨hpre, hPk, hread⟩ := ihi _ _ _ _ _ hit hwf' hocc' hreg
          rw [← hr]
          refine ⟨hpre, hPk, ?_⟩
          intro vals hok
          have hpw := hread vals hok
          rw [hsnd] at hpw
          rw [← hm]
          rw [read_mlist_plain _ _ (pairwise_headD_callable _ _ _ hpw)]
          rw [readList_of_pairwise _ _ _ hpw]
          rfl
      | vdict entries =>
        unfold convert_to_map at h
        dsimp only at h
        rcases hit : iterate_mapping n reg
            (if name.length > 0 then name ++ "." else "") entries
          with _ | ⟨r2, ms2⟩
        · rw [hit] at h; exact absurd h (by simp)
        · rw [hit] at h
          simp only [Option.map_some', Option.some.injEq, Prod.mk.injEq] at h
          obtain ⟨hr, hm⟩ := h
          obtain ⟨hkeys, hwfvals⟩ := wfVEntries_parts entries hwf
          have hocc' : ∀ pid p,
              occBList pid p (entries.map Prod.snd) = true → P pid p := by
            intro pid p hx
            exact hocc pid p (by rw [occB, occBEntries_eq_list]; exact hx)
          obtain ⟨hpre, hPk, hread⟩ := ihi _ _ _ _ _ hit hwfvals hocc' hreg
          rw [← hr]
          refine ⟨hpre, hPk, ?_⟩
          intro vals hok
          have hpw := hread vals hok
          rw [← hm]
          have hda := dictArgs_read ms2 (entries.map Prod.snd) vals
            (entries.map Prod.fst) hpw hkeys
          rw [zip_fst_snd] at hda
          have hdahead : asCallable
              (((((entries.map Prod.fst).zip ms2).filter
                  (fun kv => !isMNone kv.2)).map
                (fun kv => MapE.mlist [.mstr kv.1, kv.2])).headD .mnone) = none := by
            generalize (((entries.map Prod.fst).zip ms2).filter
                (fun kv => !isMNone kv.2)) = L
            cases L with
            | nil => rfl
            | cons e0 rest0 => rfl
          -- evaluate the stored [dict, [dict_args]] application
          unfold read_map
          dsimp only [asCallable]
          unfold readList
          rw [read_mlist_plain _ _ hdahead, hda]
          dsimp only [Option.map_some']
          unfold readList
          dsimp only [Option.map_some', Option.some_bind]
          unfold applyFunc
          have hmm2 : (entries.filter (fun kv => !isVNone kv.2)).map
                (fun kv => Value.vlist [.vstr kv.1, substGuess kv.2]) =
              ((entries.filter (fun kv => !isVNone kv.2)).map
                (fun kv => (kv.1, substGuess kv.2))).map
                (fun kv => Value.vlist [.vstr kv.1, kv.2]) := by
            rw [List.map_map]
            rfl
          rw [hmm2]
          dsimp only
          rw [pairsOfValues_map]
          dsimp only [Option.map_some']
          simp only [substGuess]
          rw [substGuessEntries_eq]
      | vxarray dim keys vs =>
        unfold convert_to_map at h
        dsimp only at h
        rcases hit : iterate_mapping n reg (name ++ ".") (keys.zip vs)
          with _ | ⟨r2, ms2⟩
        · rw [hit] at h; exact absurd h (by simp)
        · rw [hit] at h
          simp only [Option.map_some', Option.some.injEq, Prod.mk.injEq] at h
          obtain ⟨hr, hm⟩ := h
          rw [wfV] at hwf
          simp only [Bool.and_eq_true, Bool.not_eq_true', beq_iff_eq] at hwf
          obtain ⟨⟨⟨hdim, hks⟩, hlen⟩, hwfvs⟩ := hwf
          have hsnd : (keys.zip vs).map Prod.snd = vs := map_snd_zip_eq keys vs hlen
          have hwf' : wfVList ((keys.zip vs).map Prod.snd) = true := by
            rw [hsnd]; exact hwfvs
          have hocc' : ∀ pid p,
              occBList pid p ((keys.zip vs).map Prod.snd) = true → P pid p := by
            rw [hsnd]
            intro pid p hx
            exact hocc pid p (by rw [occB]; exact hx)
          obtain ⟨hpre, hPk, hread⟩ := ihi _ _ _ _ _ hit hwf' hocc' hreg
          rw [← hr]
          refine ⟨hpre, hPk, ?_⟩
          intro vals hok
          have hpw := hread vals hok
          rw [hsnd] at hpw
          rw [← hm]
          have hksb : ∀ k ∈ keys, isParameterString k = false := by
            intro k hk
            have := List.all_eq_true.mp hks k hk
            simpa using this
          unfold read_map
          dsimp only [asCallable]
          have hrdim : read_map (.mstr dim) vals = some (.vstr dim) := by
            unfold read_map
            rw [hdim]
            simp
          unfold readList
          rw [hrdim]
          unfold readList
          have hrkeys : read_map (.mlist (keys.map MapE.mstr)) vals =
              some (.vlist (keys.map Value.vstr)) := by
            have hhead : asCallable ((keys.map MapE.mstr).headD .mnone) = none := by
              rcases keys with _ | ⟨k0, krest⟩
              · rfl
              · rfl
            rw [read_mlist_plain _ _ hhead, readList_mstr keys vals hksb]
            rfl
          rw [hrkeys]
          unfold readList
          have hrvals : read_map (.mlist ms2) vals =
              some (.vlist (substGuessList vs)) := by
            rw [read_mlist_plain _ _ (pairwise_headD_callable _ _ _ hpw)]
            rw [readList_of_pairwise _ _ _ hpw]
            rfl
          rw [hrvals]
          unfold readList
          dsimp only [Option.map_some']
          rw [Option.some_bind]
          have happ : applyFunc .fxarray
              [.vstr dim, .vlist (keys.map Value.vstr), .vlist (substGuessList vs)] =
              (stringsOfValues (keys.map Value.vstr)).map
                (fun ks => Value.vxarray dim ks (substGuessList vs)) := rfl
          rw [happ, stringsOfValues_map]
          rfl
      | vcomplexPrior re im =>
        unfold convert_to_map at h
        dsimp only at h
        rcases hit : iterate_mapping n reg (name ++ ".") [("real", re), ("imag", im)]
          with _ | ⟨r2, ms2⟩
        · rw [hit] at h; exact absurd h (by simp)
        · rw [hit] at h
          simp only [Option.map_some', Option.some.injEq, Prod.mk.injEq] at h
          obtain ⟨hr, hm⟩ := h
          rw [wfV] at hwf
          simp only [Bool.and_eq_true] at hwf
          obtain ⟨hre, him⟩ := hwf
          have hwfre : wfV re = true := by
            cases re <;> simp [isNumOrPrior] at hre <;> rfl
          have hwfim : wfV im = true := by
            cases im <;> simp [isNumOrPrior] at him <;> rfl
          have hwf' : wfVList ([("real", re), ("imag", im)].map Prod.snd) = true := by
            simp only [List.map_cons, List.map_nil]
            rw [wfVList, wfVList, wfVList]
            simp [hwfre, hwfim]
          have hocc' : ∀ pid p,
              occBList pid p ([("real", re), ("imag", im)].map Prod.snd) = true →
              P pid p := by
            intro pid p hx
            simp only [List.map_cons, List.map_nil] at hx
            rw [occBList, occBList, occBList] at hx
            simp only [Bool.or_eq_true, Bool.or_eq_false_iff] at hx
            apply hocc pid p
            rw [occB]
            rcases hx with hx | hx | hx
            · simp [hx]
            · simp [hx]
            · simp at hx
          obtain ⟨hpre, hPk, hread⟩ := ihi _ _ _ _ _ hit hwf' hocc' hreg
          rw [← hr]
          refine ⟨hpre, hPk, ?_⟩
          intro vals hok
          have hpw := hread vals hok
          simp only [List.map_cons, List.map_nil] at hpw
          rw [← hm]
          rcases ms2 with _ | ⟨m1, ms2'⟩
          · exact absurd hpw (by simp [PairwiseRead])
          · rcases ms2' with _ | ⟨m2, ms2''⟩
            · exact absurd hpw.2.2.2 (by simp [PairwiseRead])
            · rcases ms2'' with _ | _
              · obtain ⟨hr1, -, -, hr2, -, -, -⟩ := hpw
                obtain ⟨a, hsa⟩ := isNumOrPrior_substGuess re hre
                obtain ⟨b, hsb⟩ := isNumOrPrior_substGuess im him
                unfold read_map
                dsimp only [asCallable]
                unfold readList
                rw [hr1]
                unfold readList
                rw [hr2]
                unfold readList
                dsimp only [Option.map_some']
                rw [Option.some_bind]
                simp only [substGuess]
                rw [hsa, hsb]
                rfl
              · obtain ⟨-, -, -, -, -, -, hbad⟩ := hpw
                exact absurd hbad (by simp [PairwiseRead])
      | vprior pid p =>
        unfold convert_to_map at h
        dsimp only at h
        rcases hct : check_for_ties reg pid p name with _ | ⟨r2, i2⟩
        · rw [hct] at h; exact absurd h (by simp)
        · rw [hct] at h
          simp only [Option.map_some', Option.some.injEq, Prod.mk.injEq] at h
          obtain ⟨hr, hm⟩ := h
          have hoccself : P pid p := hocc pid p (by rw [occB]; simp)
          rcases hf : findTieIndex reg.parameters pid with _ | k
          · obtain ⟨hi, hps, -⟩ := check_for_ties_untied _ _ _ _ _ _ hf hct
            rw [← hr]
            refine ⟨?_, ?_, ?_⟩
            · rw [hps]; exact List.prefix_append _ _
            · intro e he
              rw [hps] at he
              rcases List.mem_append.mp he with he | he
              · exact hreg e he
              · simp only [List.mem_singleton] at he
                rw [he]
                exact hoccself
            · intro vals hok
              have hget : r2.parameters.get? i2 = some (pid, p) := by
                rw [hps, hi]
                exact List.get?_concat_length _ _
              have hvi := hok i2 (pid, p) hget
              have hlt : i2 < vals.length :=
                (List.get?_eq_some.mp hvi).1
              rw [← hm]
              unfold read_map
              rw [pyGetIdx_nat vals i2 hlt, hvi]
              rfl
          · obtain ⟨hi, hps, -⟩ := check_for_ties_tied _ _ _ _ _ _ _ hf hct
            obtain ⟨q, hq⟩ := findTieIndex_some _ _ _ hf
            have hqP : P pid q := hreg (pid, q) (List.get?_mem hq)
            have hqp : q = p := hP pid q p hqP hoccself
            rw [← hr]
            refine ⟨by rw [hps], fun e he => hreg e (by rwa [hps] at he), ?_⟩
            intro vals hok
            have hget : r2.parameters.get? i2 = some (pid, p) := by
              rw [hps, hi, hq, hqp]
            have hvi := hok i2 (pid, p) hget
            have hlt : i2 < vals.length := (List.get?_eq_some.mp hvi).1
            rw [← hm]
            unfold read_map
            rw [pyGetIdx_nat vals i2 hlt, hvi]
            rfl
      | vint k =>
        unfold convert_to_map at h
        simp only [Option.some.injEq, Prod.mk.injEq] at h
        rw [← h.1, ← h.2]
        exact ⟨List.prefix_refl _, hreg, fun vals _ => rfl⟩
      | vstr s =>
        unfold convert_to_map at h
        simp only [Option.some.injEq, Prod.mk.injEq] at h
        rw [← h.1, ← h.2]
        refine ⟨List.prefix_refl _, hreg, ?_⟩
        intro vals _
        rw [wfV] at hwf
        simp only [Bool.not_eq_true'] at hwf
        unfold read_map
        rw [hwf]
        rfl
      | vnone =>
        unfold convert_to_map at h
        simp only [Option.some.injEq, Prod.mk.injEq] at h
        rw [← h.1, ← h.2]
        exact ⟨List.prefix_refl _, hreg, fun vals _ => rfl⟩
      | vcomplex a b =>
        unfold convert_to_map at h
        simp only [Option.some.injEq, Prod.mk.injEq] at h
        rw [← h.1, ← h.2]
        exact ⟨List.prefix_refl _, hreg, fun vals _ => rfl⟩
      | vfunc f => exact absurd hwf (by simp [wfV])
    · intro reg pre pairs reg' ms h hwf hocc hreg
      cases pairs with
      | nil =>
        unfold iterate_mapping at h
        simp only [Option.some.injEq, Prod.mk.injEq] at h
        rw [← h.1, ← h.2]
        exact ⟨List.prefix_refl _, hreg, fun vals _ => trivial⟩
      | cons sv rest =>
        rcases sv with ⟨sfx, v⟩
        unfold iterate_mapping at h
        rcases hc : convert_to_map n reg v (pre ++ sfx) with _ | ⟨r1, m1⟩
        · rw [hc] at h; exact absurd h (by simp)
        · rw [hc] at h
          dsimp only at h
          rcases hit : iterate_mapping n r1 pre rest with _ | ⟨r2, ms2⟩
          · rw [hit] at h; exact absurd h (by simp)
          · rw [hit] at h
            simp only [Option.some.injEq, Prod.mk.injEq] at h
            obtain ⟨hr, hms⟩ := h
            simp only [List.map_cons] at hwf hocc
            rw [wfVList] at hwf
            simp only [Bool.and_eq_true] at hwf
            obtain ⟨hwfv, hwfrest⟩ := hwf
            have hoccv : ∀ pid p, occB pid p v = true → P pid p := by
              intro pid p hx
              exact hocc pid p (by rw [occBList]; simp [hx])
            have hoccrest : ∀ pid p,
                occBList pid p (rest.map Prod.snd) = true → P pid p := by
              intro pid p hx
              exact hocc pid p (by rw [occBList]; simp [hx])
            obtain ⟨hpre1, hP1, hread1⟩ := ihc _ _ _ _ _ hc hwfv hoccv hreg
            obtain ⟨hpre2, hP2, hread2⟩ := ihi _ _ _ _ _ hit hwfrest hoccrest hP1
            rw [← hr]
            refine ⟨hpre1.trans hpre2, hP2, ?_⟩
            intro vals hok
            have hok1 : ValsOK r1.parameters vals := ValsOK_mono _ _ _ hpre2 hok
            rw [← hms]
            simp only [List.map_cons]
            refine ⟨hread1 vals hok1, convert_mnone_iff _ _ _ _ _ _ hc,
              convert_asCallable_none _ _ _ _ _ _ hc hwfv, hread2 vals hok⟩

/-- C1 counterexample: building a configuration that is a single free prior
and reading the map back with the guess vector yields the guess value, not
the prior object, so the reconstruction is not deep-equal to the original
configuration. -/
theorem C1_counterexample :
    convert_to_map 1 ⟨[], []⟩ (.vprior 0 pX) "x" =
      some (⟨[(0, pX)], ["x"]⟩, .mparam 0) ∧
    read_map (.mparam 0) (guessVec [(0, pX)]) = some (.vint 5) ∧
    Value.vint 5 ≠ Value.vprior 0 pX :=
  ⟨rfl, rfl, fun h => Value.noConfusion h⟩

/-- C1 amended: for every well-formed nested configuration `C` (no callable
values, no strings or labels carrying the reserved `'_parameter_'` prefix,
`ComplexPrior` parts that are numbers or priors, coherent object identities),
building `C` from an empty registry yields a registry and map such that
reading the map under the guess vector reconstructs `C` with every free
Variable replaced by its guess value, tuples and arrays turned into lists,
each `ComplexPrior` turned into the complex number of its parts' guesses, and
mapping entries whose value is the absent marker `None` dropped. -/
theorem C1_roundtrip (fuel : Nat) (C : Value) (reg' : Registry) (m : MapE)
    (hwf : wfV C = true) (hcoh : IdCoherent C)
    (hcv : convert_to_map fuel ⟨[], []⟩ C "" = some (reg', m)) :
    read_map m (guessVec reg'.parameters) = some (substGuess C) := by
  have hmain := (convert_read_sound (fun pid p => occB pid p C = true)
      (fun pid p q hp hq => hcoh pid p q hp hq) fuel).1
    ⟨[], []⟩ C "" reg' m hcv hwf (fun pid p h => h) (by simp)
  obtain ⟨-, -, hread⟩ := hmain
  apply hread
  intro i e hi
  unfold guessVec
  rw [List.get?_map, hi]
  rfl

/-- Witness for C1 at a concrete input: a dict holding a shared prior object
(appearing twice), a nested list, and a dropped `None` entry reads back to
its guess-substituted form. -/
theorem C1_roundtrip_witness :
    read_map (.mlist [.mfunc .fdict, .mlist [.mlist
        [.mlist [.mstr "a", .mparam 0],
         .mlist [.mstr "b", .mlist [.mint 2, .mparam 0]]]]])
      (guessVec [(0, pX)]) =
      some (substGuess (.vdict [("a", .vprior 0 pX),
        ("b", .vlist [.vint 2, .vprior 0 pX]), ("c", .vnone)])) :=
  C1_roundtrip 9
    (.vdict [("a", .vprior 0 pX), ("b", .vlist [.vint 2, .vprior 0 pX]),
      ("c", .vnone)])
    ⟨[(0, pX)], ["a"]⟩ _ (by decide)
    (by
      intro pid p q hp hq
      simp only [occB, occBEntries, occBList, Bool.or_eq_true,
        Bool.and_eq_true, beq_iff_eq, Bool.false_eq_true, or_false,
        false_or] at hp hq
      have h1 : pX = p := by rcases hp with ⟨-, h⟩ | ⟨-, h⟩ <;> exact h
      have h2 : pX = q := by rcases hq with ⟨-, h⟩ | ⟨-, h⟩ <;> exact h
      exact h1.symm.trans h2)
    (by rfl)
